import Mathlib

/-!
Verification of the auditable-item-graph service
(`src/packages/auditable-item-graph-service/src/auditableItemGraphService.ts`)
against its natural-language specification.

The TypeScript service is shallowly embedded: every method that the claims
touch is translated into a pure Lean function over explicit state
(vertex models and entities are structures, collaborators such as the vault
signer, Blake2b, the JSON diff and the immutable log are passed in as
function parameters, mirroring the dependency-injected connectors of the
source).  Bytes are `List Nat` (each `< 256` where it matters), base64 and
UTF-8 are implemented concretely so that hash-chain statements evaluate.
-/

namespace AIG

/-- Bytes are lists of naturals; values are `< 256` where it matters. -/
abbrev Bytes := List Nat

/-! ## Base64 (`Converter.bytesToBase64` / `Converter.base64ToBytes`) -/

/-- The URL-unsafe base64 alphabet used by `Converter.bytesToBase64`. -/
def b64Alphabet : List Char :=
  ['A', 'B', 'C', 'D', 'E', 'F', 'G', 'H', 'I', 'J', 'K', 'L', 'M',
   'N', 'O', 'P', 'Q', 'R', 'S', 'T', 'U', 'V', 'W', 'X', 'Y', 'Z',
   'a', 'b', 'c', 'd', 'e', 'f', 'g', 'h', 'i', 'j', 'k', 'l', 'm',
   'n', 'o', 'p', 'q', 'r', 's', 't', 'u', 'v', 'w', 'x', 'y', 'z',
   '0', '1', '2', '3', '4', '5', '6', '7', '8', '9', '+', '/']

/-- The base64 character for a sixtet value. -/
def b64Char (n : Nat) : Char := b64Alphabet.getD n '='

/-- The sixtet value of a base64 character. -/
def b64Value (c : Char) : Nat := b64Alphabet.indexOf c

/-- Standard base64 encoding of a byte list, chunked three bytes at a time,
with `=` padding. -/
def b64EncodeChunks : List Nat → List Char
  | [] => []
  | [a] => [b64Char (a / 4), b64Char (a % 4 * 16), '=', '=']
  | [a, b] => [b64Char (a / 4), b64Char (a % 4 * 16 + b / 16), b64Char (b % 16 * 4), '=']
  | a :: b :: c :: rest =>
      b64Char (a / 4) :: b64Char (a % 4 * 16 + b / 16) ::
      b64Char (b % 16 * 4 + c / 64) :: b64Char (c % 64) :: b64EncodeChunks rest

/-- `Converter.bytesToBase64`. -/
def bytesToBase64 (bs : Bytes) : String := ⟨b64EncodeChunks bs⟩

/-- Standard base64 decoding, four characters at a time, honouring the
`=` padding of well-formed input. -/
def b64DecodeChunks : List Char → List Nat
  | c1 :: c2 :: c3 :: c4 :: rest =>
      let v1 := b64Value c1
      let v2 := b64Value c2
      if c3 = '=' then [v1 * 4 + v2 / 16]
      else
        let v3 := b64Value c3
        if c4 = '=' then [v1 * 4 + v2 / 16, v2 % 16 * 16 + v3 / 4]
        else (v1 * 4 + v2 / 16) :: (v2 % 16 * 16 + v3 / 4) ::
             (v3 % 4 * 64 + b64Value c4) :: b64DecodeChunks rest
  | _ => []

/-- `Converter.base64ToBytes`. -/
def base64ToBytes (s : String) : Bytes := b64DecodeChunks s.data

/-! ## UTF-8 (`Converter.utf8ToBytes`) -/

/-- UTF-8 encoding of a single character. -/
def utf8Char (c : Char) : Bytes :=
  let n := c.toNat
  if n < 0x80 then [n]
  else if n < 0x800 then [0xC0 + n / 0x40, 0x80 + n % 0x40]
  else if n < 0x10000 then
    [0xE0 + n / 0x1000, 0x80 + n / 0x40 % 0x40, 0x80 + n % 0x40]
  else
    [0xF0 + n / 0x40000, 0x80 + n / 0x1000 % 0x40,
     0x80 + n / 0x40 % 0x40, 0x80 + n % 0x40]

/-- `Converter.utf8ToBytes`. -/
def utf8Bytes (s : String) : Bytes := (s.data.map utf8Char).flatten

/-! ## Data model

Metadata is opaque structured data in the source; all comparisons go through
`JsonHelper.canonicalize`, which maps semantically equal values to identical
strings.  We therefore model a metadata value by its canonical string, and
`JsonHelper.canonicalize` is the identity on it.  Sub-element entities in the
source have no `updated` member, so the entity↔model mappings set it `none`. -/

/-- `Is.empty` / `Is.undefined` on optional values is the `none` test;
`Is.arrayValue` demands a non-empty array. -/
def isArrayValue (o : Option (List α)) : Bool :=
  match o with
  | some l => ¬ l.isEmpty
  | none => false

/-- `Is.stringValue`: a string with at least one character. -/
def isStringValue (o : Option String) : Bool :=
  match o with
  | some s => ¬ s.isEmpty
  | none => false

/-- JavaScript truthiness of `existing?.deleted` (a number or undefined):
undefined and 0 are falsy. -/
def optNatTruthy (o : Option Nat) : Bool :=
  match o with
  | some n => n ≠ 0
  | none => false

/-- One JSON Patch operation (`IPatchOperation`); `value` holds the canonical
form of the attached value when there is one. -/
inductive PatchOp
  | add
  | remove
  | replace
deriving DecidableEq, Repr

/-- An RFC 6902 operation as stored in a changeset. -/
structure Patch where
  op : PatchOp
  path : String
  value : Option String := none
deriving DecidableEq, Repr

/-- A changeset record (`IAuditableItemGraphChangeset`). -/
structure Changeset where
  created : Nat
  userIdentity : String
  patches : List Patch
  hash : String
  immutableStorageId : Option String := none
deriving DecidableEq, Repr

/-- An alias sub-element (`IAuditableItemGraphAlias`). -/
structure AIGAlias where
  id : String
  created : Nat
  updated : Option Nat := none
  deleted : Option Nat := none
  metadataSchema : Option String := none
  metadata : Option String := none
deriving DecidableEq, Repr

/-- A resource sub-element (`IAuditableItemGraphResource`). -/
structure AIGResource where
  id : String
  created : Nat
  updated : Option Nat := none
  deleted : Option Nat := none
  metadataSchema : Option String := none
  metadata : Option String := none
deriving DecidableEq, Repr

/-- An edge sub-element (`IAuditableItemGraphEdge`); it additionally names a
relationship. -/
structure AIGEdge where
  id : String
  created : Nat
  updated : Option Nat := none
  deleted : Option Nat := none
  relationship : String
  metadataSchema : Option String := none
  metadata : Option String := none
deriving DecidableEq, Repr

/-- The vertex model (`IAuditableItemGraphVertex`). -/
structure Vertex where
  id : String
  nodeIdentity : String
  created : Nat
  updated : Nat
  metadataSchema : Option String := none
  metadata : Option String := none
  aliases : Option (List AIGAlias) := none
  resources : Option (List AIGResource) := none
  edges : Option (List AIGEdge) := none
  changesets : Option (List Changeset) := none
deriving DecidableEq, Repr

/-- The persisted vertex entity (`AuditableItemGraphVertex`): the model plus
the derived `aliasIndex` secondary index (sub-element `updated` epochs are
not part of the entity shape and are dropped by the mapping). -/
structure VertexEntity where
  id : String
  nodeIdentity : String
  created : Nat
  updated : Nat
  metadataSchema : Option String := none
  metadata : Option String := none
  aliasIndex : Option String := none
  aliases : Option (List AIGAlias) := none
  resources : Option (List AIGResource) := none
  edges : Option (List AIGEdge) := none
  changesets : Option (List Changeset) := none
deriving DecidableEq, Repr

/-- `IAuditableItemGraphServiceContext`. -/
structure Ctx where
  now : Nat
  userIdentity : String
  nodeIdentity : String
deriving DecidableEq, Repr

/-- The alias item of a create/update request. -/
structure AliasArg where
  id : String
  metadataSchema : Option String := none
  metadata : Option String := none
deriving DecidableEq, Repr

/-- The resource item of a create/update request. -/
structure ResourceArg where
  id : String
  metadataSchema : Option String := none
  metadata : Option String := none
deriving DecidableEq, Repr

/-- The edge item of a create/update request. -/
structure EdgeArg where
  id : String
  relationship : String
  metadataSchema : Option String := none
  metadata : Option String := none
deriving DecidableEq, Repr

/-- The integrity payload `{ created, userIdentity, patches }`
(`IAuditableItemGraphIntegrity`). -/
structure Integrity where
  created : Nat
  userIdentity : String
  patches : List Patch
deriving DecidableEq, Repr

/-- Outcome of fetching a changeset credential from the immutable log and
checking it (`Jwt.decode` + `checkVerifiableCredential`): the revocation flag
and the credential subject's `signature` and optional `integrity`. -/
structure CredCheck where
  revoked : Bool
  signature : String
  integrity : Option String := none
deriving DecidableEq, Repr

/-- The external collaborators of the service, injected as functions:
`Blake2b` digests, `ObjectHelper.toBytes` on patch lists, `JsonHelper.diff`,
the vault signer/decryptor, `JsonHelper.canonicalize` on integrity payloads,
and the immutable-log/identity credential fetch. -/
structure Collab where
  blake2b : Bytes → Bytes
  serPatches : List Patch → Bytes
  diff : Vertex → Vertex → List Patch
  sign : Bytes → Bytes
  canonIntegrity : Integrity → String
  decryptS : String → String
  fetchCred : String → CredCheck

/-- Non-`none` verification depths (`Omit<VerifyDepth, "none">`). -/
inductive VDepth
  | current
  | all
deriving DecidableEq, Repr

/-- One per-changeset verification report entry (`failureProperties` are
diagnostics attached alongside and are not modelled). -/
structure VerifyEntry where
  created : Nat
  patches : List Patch
  failure : Option String := none
deriving DecidableEq, Repr

/-! ## Sub-element reconcilers -/

/-- Replace the first list element satisfying `p` — the in-place mutation of
the object returned by `Array.find`. -/
def replaceFirstBy (p : α → Bool) (f : α → α) : List α → List α
  | [] => []
  | x :: xs => if p x then f x :: xs else x :: replaceFirstBy p f xs

/-- `updateAlias`: append a fresh element when no live element with the id
exists, otherwise update metadata in place when it differs. -/
def updateAlias (ctx : Ctx) (v : Vertex) (a : AliasArg) : Vertex :=
  let als := v.aliases.getD []
  match als.find? (fun x => x.id = a.id) with
  | none =>
      { v with aliases := some (als ++
          [{ id := a.id, created := ctx.now,
             metadataSchema := a.metadataSchema, metadata := a.metadata }]) }
  | some existing =>
      if optNatTruthy existing.deleted then
        { v with aliases := some (als ++
            [{ id := a.id, created := ctx.now,
               metadataSchema := a.metadataSchema, metadata := a.metadata }]) }
      else if existing.metadataSchema ≠ a.metadataSchema ∨ existing.metadata ≠ a.metadata then
        { v with aliases := some (replaceFirstBy (fun x => x.id = a.id)
            (fun x =>
              { x with
                updated := some ctx.now,
                metadataSchema := a.metadataSchema,
                metadata := a.metadata }) als) }
      else v

/-- `!aliases?.find(a => a.id === id)`: true when the update list is absent
or contains no item with the id. -/
def aliasNotInList (aliases? : Option (List AliasArg)) (id : String) : Bool :=
  match aliases? with
  | none => true
  | some l => (l.find? (fun a => a.id = id)).isNone

/-- `updateAliasList`: tombstone the active aliases missing from the update
list, then upsert each listed alias. -/
def updateAliasList (ctx : Ctx) (v : Vertex) (aliases? : Option (List AliasArg)) : Vertex :=
  let tombstoned : Vertex :=
    { v with aliases := v.aliases.map (List.map (fun x =>
        if x.deleted = none ∧ aliasNotInList aliases? x.id then
          { x with deleted := some ctx.now }
        else x)) }
  if isArrayValue aliases? then
    (aliases?.getD []).foldl (updateAlias ctx) tombstoned
  else tombstoned

/-- `updateResource`. -/
def updateResource (ctx : Ctx) (v : Vertex) (r : ResourceArg) : Vertex :=
  let res := v.resources.getD []
  match res.find? (fun x => x.id = r.id) with
  | none =>
      { v with resources := some (res ++
          [{ id := r.id, created := ctx.now,
             metadataSchema := r.metadataSchema, metadata := r.metadata }]) }
  | some existing =>
      if optNatTruthy existing.deleted then
        { v with resources := some (res ++
            [{ id := r.id, created := ctx.now,
               metadataSchema := r.metadataSchema, metadata := r.metadata }]) }
      else if existing.metadataSchema ≠ r.metadataSchema ∨ existing.metadata ≠ r.metadata then
        { v with resources := some (replaceFirstBy (fun x => x.id = r.id)
            (fun x =>
              { x with
                updated := some ctx.now,
                metadataSchema := r.metadataSchema,
                metadata := r.metadata }) res) }
      else v

/-- `!resources?.find(a => a.id === id)`. -/
def resourceNotInList (resources? : Option (List ResourceArg)) (id : String) : Bool :=
  match resources? with
  | none => true
  | some l => (l.find? (fun r => r.id = id)).isNone

/-- `updateResourceList`. -/
def updateResourceList (ctx : Ctx) (v : Vertex) (resources? : Option (List ResourceArg)) : Vertex :=
  let tombstoned : Vertex :=
    { v with resources := v.resources.map (List.map (fun x =>
        if x.deleted = none ∧ resourceNotInList resources? x.id then
          { x with deleted := some ctx.now }
        else x)) }
  if isArrayValue resources? then
    (resources?.getD []).foldl (updateResource ctx) tombstoned
  else tombstoned

/-- `updateEdge`: like `updateResource` but the relationship participates in
the change detection and the in-place update. -/
def updateEdge (ctx : Ctx) (v : Vertex) (e : EdgeArg) : Vertex :=
  let eds := v.edges.getD []
  match eds.find? (fun x => x.id = e.id) with
  | none =>
      { v with edges := some (eds ++
          [{ id := e.id, created := ctx.now, relationship := e.relationship,
             metadataSchema := e.metadataSchema, metadata := e.metadata }]) }
  | some existing =>
      if optNatTruthy existing.deleted then
        { v with edges := some (eds ++
            [{ id := e.id, created := ctx.now, relationship := e.relationship,
               metadataSchema := e.metadataSchema, metadata := e.metadata }]) }
      else if existing.relationship ≠ e.relationship ∨
          existing.metadataSchema ≠ e.metadataSchema ∨ existing.metadata ≠ e.metadata then
        { v with edges := some (replaceFirstBy (fun x => x.id = e.id)
            (fun x =>
              { x with
                updated := some ctx.now,
                relationship := e.relationship,
                metadataSchema := e.metadataSchema,
                metadata := e.metadata }) eds) }
      else v

/-- `!edges?.find(a => a.id === id)`. -/
def edgeNotInList (edges? : Option (List EdgeArg)) (id : String) : Bool :=
  match edges? with
  | none => true
  | some l => (l.find? (fun e => e.id = id)).isNone

/-- `updateEdgeList`. -/
def updateEdgeList (ctx : Ctx) (v : Vertex) (edges? : Option (List EdgeArg)) : Vertex :=
  let tombstoned : Vertex :=
    { v with edges := v.edges.map (List.map (fun x =>
        if x.deleted = none ∧ edgeNotInList edges? x.id then
          { x with deleted := some ctx.now }
        else x)) }
  if isArrayValue edges? then
    (edges?.getD []).foldl (updateEdge ctx) tombstoned
  else tombstoned

/-! ## Entity ↔ model mapping -/

/-- `vertexModelToEntity`: copy the model, dropping sub-element `updated`
epochs (absent from the entity shape) and building the `aliasIndex`
secondary index from the alias ids collected in insertion order. -/
def vertexModelToEntity (v : Vertex) : VertexEntity :=
  let base : VertexEntity :=
    { id := v.id, created := v.created, updated := v.updated,
      nodeIdentity := v.nodeIdentity,
      metadataSchema := v.metadataSchema, metadata := v.metadata }
  let e1 :=
    if isArrayValue v.aliases then
      let st := (v.aliases.getD []).foldl
        (fun (st : List AIGAlias × List String) am =>
          (st.1 ++ [{ id := am.id, created := am.created, deleted := am.deleted,
                      metadataSchema := am.metadataSchema, metadata := am.metadata }],
           st.2 ++ [am.id]))
        ([], [])
      { base with
        aliases := some st.1,
        aliasIndex := some (String.toLower (String.intercalate "||" st.2)) }
    else base
  let e2 :=
    if isArrayValue v.resources then
      { e1 with resources := some ((v.resources.getD []).map (fun rm =>
          { id := rm.id, created := rm.created, deleted := rm.deleted,
            metadataSchema := rm.metadataSchema, metadata := rm.metadata })) }
    else e1
  let e3 :=
    if isArrayValue v.edges then
      { e2 with edges := some ((v.edges.getD []).map (fun em =>
          { id := em.id, created := em.created, deleted := em.deleted,
            relationship := em.relationship,
            metadataSchema := em.metadataSchema, metadata := em.metadata })) }
    else e2
  if isArrayValue v.changesets then
    { e3 with changesets := some ((v.changesets.getD []).map (fun c =>
        { created := c.created, userIdentity := c.userIdentity, patches := c.patches,
          hash := c.hash, immutableStorageId := c.immutableStorageId })) }
  else e3

/-- `vertexEntityToModel`: copy the entity back into a model (sub-element
`updated` epochs do not exist on the entity, so they come back `none`). -/
def vertexEntityToModel (e : VertexEntity) : Vertex :=
  let base : Vertex :=
    { id := e.id, created := e.created, updated := e.updated,
      nodeIdentity := e.nodeIdentity,
      metadataSchema := e.metadataSchema, metadata := e.metadata }
  let m1 :=
    if isArrayValue e.aliases then
      { base with aliases := some ((e.aliases.getD []).map (fun ae =>
          { id := ae.id, created := ae.created, deleted := ae.deleted,
            metadataSchema := ae.metadataSchema, metadata := ae.metadata })) }
    else base
  let m2 :=
    if isArrayValue e.resources then
      { m1 with resources := some ((e.resources.getD []).map (fun re =>
          { id := re.id, created := re.created, deleted := re.deleted,
            metadataSchema := re.metadataSchema, metadata := re.metadata })) }
    else m1
  let m3 :=
    if isArrayValue e.edges then
      { m2 with edges := some ((e.edges.getD []).map (fun ee =>
          { id := ee.id, created := ee.created, deleted := ee.deleted,
            relationship := ee.relationship,
            metadataSchema := ee.metadataSchema, metadata := ee.metadata })) }
    else m2
  if isArrayValue e.changesets then
    { m3 with changesets := some ((e.changesets.getD []).map (fun c =>
        { created := c.created, userIdentity := c.userIdentity, patches := c.patches,
          hash := c.hash, immutableStorageId := c.immutableStorageId })) }
  else m3

/-! ## Changeset hashing (`addChangeset`) -/

/-- The byte sequence fed to `Blake2b` for one changeset: the previous link,
the UTF-8 bytes of the decimal epoch, the UTF-8 bytes of the user identity,
and the serialized patch list — exactly the `b2b.update` calls shared by
`addChangeset` and `verifyChangesets`. -/
def chainInput (ser : List Patch → Bytes) (prev : Bytes) (created : Nat)
    (userIdentity : String) (patches : List Patch) : Bytes :=
  prev ++ utf8Bytes (Nat.repr created) ++ utf8Bytes userIdentity ++ ser patches

/-- The link to the previous changeset: the base64-decoded stored hash of
the most recent one, or nothing for the first changeset. -/
def prevChainLink (changeSets : List Changeset) : Bytes :=
  match changeSets.getLast? with
  | some last => base64ToBytes last.hash
  | none => []

/-- `addChangeset`: diff the models; when the diff is non-empty or no
changeset exists yet, chain the digest onto the base64-decoded previous
stored hash, sign the raw digest, and append a changeset carrying the
base64 digest and the immutable-storage id `sid` obtained from the log.
Returns (changes?, model, the credential's base64 signature when one was
produced).  The credential assembly/encryption and the immutable-log write
are collaborator side effects (`sid` stands for the returned id). -/
def addChangeset (C : Collab) (sid : String) (ctx : Ctx)
    (originalModel updatedModel : Vertex) : Bool × Vertex × Option String :=
  let patches := C.diff originalModel updatedModel
  let changeSets := originalModel.changesets.getD []
  if patches.length > 0 ∨ changeSets.length = 0 then
    let prevLink : Bytes := prevChainLink changeSets
    let changeSetHash :=
      C.blake2b (chainInput C.serPatches prevLink ctx.now ctx.userIdentity patches)
    let credentialSignature := bytesToBase64 (C.sign changeSetHash)
    (true,
     { updatedModel with changesets := some (changeSets ++
         [{ created := ctx.now, userIdentity := ctx.userIdentity, patches := patches,
            hash := bytesToBase64 changeSetHash, immutableStorageId := some sid }]) },
     some credentialSignature)
  else (false, updatedModel, none)

/-! ## Service operations -/

/-- The mutation pipeline shared by `create` and `update`: overwrite the
metadata fields with the passed arguments (unconditionally — absent
arguments clear the stored values) and run the three reconcilers. -/
def reconcile (ctx : Ctx) (v : Vertex)
    (metadataSchema metadata : Option String)
    (aliases? : Option (List AliasArg)) (resources? : Option (List ResourceArg))
    (edges? : Option (List EdgeArg)) : Vertex :=
  let v1 := { v with metadataSchema := metadataSchema, metadata := metadata }
  let v2 := updateAliasList ctx v1 aliases?
  let v3 := updateResourceList ctx v2 resources?
  updateEdgeList ctx v3 edges?

/-- `create`: build the zero-value vertex (`idHex` stands for the random
32-byte hex id), apply the reconcilers, write the first changeset, persist. -/
def create (C : Collab) (sid : String) (ctx : Ctx) (idHex : String)
    (metadataSchema metadata : Option String)
    (aliases? : Option (List AliasArg)) (resources? : Option (List ResourceArg))
    (edges? : Option (List EdgeArg)) : VertexEntity :=
  let vertexModel : Vertex :=
    { id := idHex, nodeIdentity := ctx.nodeIdentity,
      created := ctx.now, updated := ctx.now }
  let originalModel := vertexModel
  let v4 := reconcile ctx vertexModel metadataSchema metadata aliases? resources? edges?
  let r := addChangeset C sid ctx originalModel v4
  vertexModelToEntity r.2.1

/-- `update`: load the model, clone the prior snapshot, overwrite the
metadata fields, reconcile, diff; persist (`some`) only when there were
changes, stamping `updated := now` — otherwise no write happens (`none`). -/
def update (C : Collab) (sid : String) (ctx : Ctx) (vertexEntity : VertexEntity)
    (metadataSchema metadata : Option String)
    (aliases? : Option (List AliasArg)) (resources? : Option (List ResourceArg))
    (edges? : Option (List EdgeArg)) : Option VertexEntity :=
  let vertexModel := vertexEntityToModel vertexEntity
  let originalModel := vertexModel
  let v4 := reconcile ctx vertexModel metadataSchema metadata aliases? resources? edges?
  let r := addChangeset C sid ctx originalModel v4
  if r.1 then some (vertexModelToEntity { r.2.1 with updated := ctx.now }) else none

/-- `removeImmutable`: clear `immutableStorageId` on every changeset carrying
one; the second component lists the ids handed to the immutable log's
`remove`.  (The source re-persists only when something changed; the resulting
stored state is the same either way.) -/
def removeImmutable (vertexEntity : VertexEntity) : VertexEntity × List String :=
  if isArrayValue vertexEntity.changesets then
    let r := (vertexEntity.changesets.getD []).foldl
      (fun (st : List Changeset × List String) c =>
        if isStringValue c.immutableStorageId then
          (st.1 ++ [{ c with immutableStorageId := none }],
           st.2 ++ [c.immutableStorageId.getD ""])
        else (st.1 ++ [c], st.2))
      ([], [])
    ({ vertexEntity with changesets := some r.1 }, r.2)
  else (vertexEntity, [])

/-! ## Verifier (`verifyChangesets`) -/

/-- The failure computed inside the in-scope branch of the verification loop
for one changeset whose recomputed hash matched: fetch the credential by
`immutableStorageId` (when present and non-empty), and report revocation, a
signature mismatch against the locally recomputed signature over the
recomputed digest, or an integrity-canonicalization mismatch. -/
def verifyStepFailure (C : Collab) (c : Changeset) (verifyHash : Bytes) : Option String :=
  match c.immutableStorageId with
  | some sid =>
      if sid.isEmpty then none
      else
        let res := C.fetchCred sid
        if res.revoked then some "changesetCredentialRevoked"
        else if res.signature ≠ bytesToBase64 (C.sign verifyHash) then
          some "invalidChangesetSignature"
        else
          match res.integrity with
          | some enc =>
              if C.decryptS enc ≠
                  C.canonIntegrity { created := c.created,
                                     userIdentity := c.userIdentity,
                                     patches := c.patches } then
                some "invalidChangesetCanonical"
              else none
          | none => none
  | none => none

/-- The verification loop: `i` is the index, `lastHash` the digest recomputed
for the previous changeset (`[]` before the first — an absent `b2b.update`),
`verified` the aggregate flag.  NOTE the faithful quirk: the aggregate flag
is pulled to `false` only inside the in-scope branch, so a changeset failing
the hash comparison records its failure without touching `verified`. -/
def verifyLoop (C : Collab) (depth : VDepth) (n : Nat) :
    Nat → Bytes → Bool → List Changeset → Bool × List VerifyEntry
  | _, _, verified, [] => (verified, [])
  | i, lastHash, verified, c :: rest =>
      let verifyHash :=
        C.blake2b (chainInput C.serPatches lastHash c.created c.userIdentity c.patches)
      let failure : Option String :=
        if bytesToBase64 verifyHash ≠ c.hash then some "invalidChangesetHash"
        else if depth = VDepth.all ∨ (depth = VDepth.current ∧ i = n - 1) then
          verifyStepFailure C c verifyHash
        else none
      let verified' : Bool :=
        if bytesToBase64 verifyHash = c.hash ∧
            (depth = VDepth.all ∨ (depth = VDepth.current ∧ i = n - 1)) ∧
            (verifyStepFailure C c verifyHash).isSome
        then false else verified
      let r := verifyLoop C depth n (i + 1) verifyHash verified' rest
      (r.1, { created := c.created, patches := c.patches, failure := failure } :: r.2)

/-- `verifyChangesets`: replay every changeset of the vertex in order. -/
def verifyChangesets (C : Collab) (v : Vertex) (depth : VDepth) :
    Bool × List VerifyEntry :=
  let css := v.changesets.getD []
  verifyLoop C depth css.length 0 [] true css

/-! ## `get` -/

/-- The result of `get`. -/
structure GetResult where
  verified : Option Bool
  verification : Option (List VerifyEntry)
  vertex : Vertex
deriving Repr

/-- `get` (post-load part, the stored entity given): optionally verify, then
unless `includeDeleted` drop tombstoned sub-elements (and empty collections),
and unless `includeChangesets` strip `changesets`. -/
def get (C : Collab) (vertexEntity : VertexEntity)
    (includeDeleted includeChangesets : Bool)
    (verifySignatureDepth : Option VDepth) : GetResult :=
  let vertexModel := vertexEntityToModel vertexEntity
  let vr : Option Bool × Option (List VerifyEntry) :=
    match verifySignatureDepth with
    | some d =>
        let r := verifyChangesets C vertexModel d
        (some r.1, some r.2)
    | none => (none, none)
  let v1 :=
    if ¬ includeDeleted then
      let va :=
        if isArrayValue vertexModel.aliases then
          let f := (vertexModel.aliases.getD []).filter (fun a => a.deleted = none)
          { vertexModel with aliases := if f.length = 0 then none else some f }
        else vertexModel
      let vb :=
        if isArrayValue va.resources then
          let f := (va.resources.getD []).filter (fun r => r.deleted = none)
          { va with resources := if f.length = 0 then none else some f }
        else va
      if isArrayValue vb.edges then
        let f := (vb.edges.getD []).filter (fun r => r.deleted = none)
        { vb with edges := if f.length = 0 then none else some f }
      else vb
    else vertexModel
  let v2 := if ¬ includeChangesets then { v1 with changesets := none } else v1
  { verified := vr.1, verification := vr.2, vertex := v2 }

/-! ## Specification-side definitions -/

/-- The hash-chain property as the specification states it: the stored hash
of each changeset is the base64 of Blake2b over the byte concatenation of
the RAW digest of the previous changeset (`prev`, empty before the first),
the ASCII decimal of `created`, the UTF-8 user identity, and the serialized
patches. -/
def specChainOk (H : Bytes → Bytes) (ser : List Patch → Bytes) :
    Bytes → List Changeset → Prop
  | _, [] => True
  | prev, c :: rest =>
      c.hash = bytesToBase64 (H (chainInput ser prev c.created c.userIdentity c.patches)) ∧
      specChainOk H ser (H (chainInput ser prev c.created c.userIdentity c.patches)) rest

/-- The raw digest after replaying a changeset list from link `prev`. -/
def rawAfter (H : Bytes → Bytes) (ser : List Patch → Bytes) :
    Bytes → List Changeset → Bytes
  | prev, [] => prev
  | prev, c :: rest =>
      rawAfter H ser (H (chainInput ser prev c.created c.userIdentity c.patches)) rest

/-- The raw digest recomputed for the changeset at index `j`, replaying from
link `prev` — it depends only on `created`, `userIdentity` and `patches` of
the changesets up to `j`, never on their stored hashes. -/
def rawAt (H : Bytes → Bytes) (ser : List Patch → Bytes) :
    Bytes → List Changeset → Nat → Bytes
  | prev, [], _ => prev
  | prev, c :: _, 0 => H (chainInput ser prev c.created c.userIdentity c.patches)
  | prev, c :: rest, j + 1 =>
      rawAt H ser (H (chainInput ser prev c.created c.userIdentity c.patches)) rest j

/-- Modelled from the spec: `JsonHelper.diff` is the RFC 6902 diff engine of
`@gtsc/core`, whose source is not part of this repository.  Per §4.B it
emits `add` for new paths, `replace` for changed leaves and `remove` for
removed paths; this model restricts it to the two top-level metadata fields
of a vertex, the fields claim C9 is about. -/
def diffMetaFields (P U : Vertex) : List Patch :=
  (match P.metadataSchema, U.metadataSchema with
   | none, none => []
   | none, some u => [{ op := PatchOp.add, path := "/metadataSchema", value := some u }]
   | some _, none => [{ op := PatchOp.remove, path := "/metadataSchema" }]
   | some p, some u =>
       if p = u then []
       else [{ op := PatchOp.replace, path := "/metadataSchema", value := some u }]) ++
  (match P.metadata, U.metadata with
   | none, none => []
   | none, some u => [{ op := PatchOp.add, path := "/metadata", value := some u }]
   | some _, none => [{ op := PatchOp.remove, path := "/metadata" }]
   | some p, some u =>
       if p = u then []
       else [{ op := PatchOp.replace, path := "/metadata", value := some u }])

/-- The arguments of one `update` call. -/
structure UpdateArgs where
  sid : String
  ctx : Ctx
  metadataSchema : Option String := none
  metadata : Option String := none
  aliases : Option (List AliasArg) := none
  resources : Option (List ResourceArg) := none
  edges : Option (List EdgeArg) := none

/-- Apply one `update` call to the stored entity: when `update` reports no
changes the store is not written, so the stored state is unchanged. -/
def applyUpdate (C : Collab) (e : VertexEntity) (a : UpdateArgs) : VertexEntity :=
  match update C a.sid a.ctx e a.metadataSchema a.metadata a.aliases a.resources a.edges with
  | some e2 => e2
  | none => e

/-- Apply a sequence of `update` calls. -/
def applyUpdates (C : Collab) (e : VertexEntity) (ops : List UpdateArgs) : VertexEntity :=
  ops.foldl (applyUpdate C) e

/-- The ids of a vertex's aliases (live and tombstoned, insertion order). -/
def aliasIds (v : Vertex) : List String := (v.aliases.getD []).map (fun a => a.id)

/-- The ids of a vertex's resources. -/
def resourceIds (v : Vertex) : List String := (v.resources.getD []).map (fun r => r.id)

/-- The ids of a vertex's edges. -/
def edgeIds (v : Vertex) : List String := (v.edges.getD []).map (fun e => e.id)

/-! ## Concrete fixtures used by counterexamples and witnesses -/

/-- A trivial collaborator assembly: the digest and signature functions
return no bytes, the diff reports no changes. -/
def trivialCollab : Collab :=
  { blake2b := fun _ => [], serPatches := fun _ => [], diff := fun _ _ => [],
    sign := fun _ => [], canonIntegrity := fun _ => "", decryptS := fun s => s,
    fetchCred := fun _ => { revoked := false, signature := "" } }

/-- A collaborator assembly whose diff engine is the spec-modelled
`diffMetaFields`. -/
def metaDiffCollab : Collab :=
  { trivialCollab with diff := diffMetaFields }

/-- A vertex with one live alias `a`. -/
def vOneLiveAlias : Vertex :=
  { id := "v", nodeIdentity := "n", created := 1, updated := 1,
    aliases := some [{ id := "a", created := 1 }] }

/-- `now = 5`. -/
def ctx5 : Ctx := { now := 5, userIdentity := "u", nodeIdentity := "n" }

/-- The alias collection after create `[a]` at 1, update `[]` at 2, and
update `[a]` at 3 — the soft-delete / re-add sequence of claim C5. -/
def vReAdd : Vertex :=
  updateAliasList { now := 3, userIdentity := "u", nodeIdentity := "n" }
    (updateAliasList { now := 2, userIdentity := "u", nodeIdentity := "n" }
      (updateAliasList { now := 1, userIdentity := "u", nodeIdentity := "n" }
        { id := "v", nodeIdentity := "n", created := 1, updated := 1 }
        (some [{ id := "a" }]))
      (some []))
    (some [{ id := "a" }])

/-- A vertex whose first stored changeset hash is corrupted (`"bad"`) while
the second one is the value `trivialCollab.blake2b` reproduces (`""` is the
base64 of the empty digest). -/
def vTampered : Vertex :=
  { id := "v", nodeIdentity := "n", created := 1, updated := 1,
    changesets := some [
      { created := 1, userIdentity := "u", patches := [], hash := "bad" },
      { created := 2, userIdentity := "u", patches := [], hash := "" }] }

/-- The stored entity carrying `vTampered`'s changesets. -/
def eTampered : VertexEntity :=
  { id := "v", nodeIdentity := "n", created := 1, updated := 1,
    changesets := some [
      { created := 1, userIdentity := "u", patches := [], hash := "bad" },
      { created := 2, userIdentity := "u", patches := [], hash := "" }] }

/-- A stored entity carrying metadata, for the C9 witness. -/
def eMeta : VertexEntity :=
  { id := "v", nodeIdentity := "n", created := 1, updated := 1,
    metadataSchema := some "s", metadata := some "m" }

/-- A changeset that `trivialCollab` verifies (the base64 of the empty
digest is the empty string). -/
def cOk : Changeset :=
  { created := 1, userIdentity := "u", patches := [], hash := "" }

/-- `cOk`'s chain with its stored hash replaced out-of-band by `"x"`. -/
def vSetHash : Vertex :=
  { id := "v", nodeIdentity := "n", created := 1, updated := 1,
    changesets := some ([cOk].set 0 { cOk with hash := "x" }) }

/-- A verifiable changeset that carries an immutable-storage id. -/
def cOkSid : Changeset :=
  { created := 1, userIdentity := "u", patches := [], hash := "",
    immutableStorageId := some "immutable:xyz" }

/-- A stored entity with one anchored changeset, for the C8 witness. -/
def eWithSid : VertexEntity :=
  { id := "v", nodeIdentity := "n", created := 1, updated := 1,
    changesets := some [cOkSid] }

/-- A live vertex state carrying one live and one tombstoned alias (distinct
ids), for the C5 witness. -/
def vMixed : Vertex :=
  { id := "v", nodeIdentity := "n", created := 1, updated := 1,
    aliases := some [{ id := "a", created := 1 },
                     { id := "b", created := 1, deleted := some 2 }],
    resources := some [{ id := "r", created := 1 }],
    edges := some [{ id := "e", created := 1, relationship := "rel" }] }

/-! # Theorems

## Base64 facts -/

theorem b64Value_b64Char : ∀ n, n < 64 → b64Value (b64Char n) = n := by decide

theorem b64Char_ne_pad : ∀ n, n < 64 → b64Char n ≠ '=' := by decide

theorem divAdd16 (x y : Nat) (hy : y < 16) : (x * 16 + y) / 16 = x := by
  rw [Nat.add_comm, Nat.add_mul_div_right _ _ (by norm_num : (0:Nat) < 16),
    Nat.div_eq_of_lt hy, Nat.zero_add]

theorem modAdd16 (x y : Nat) (hy : y < 16) : (x * 16 + y) % 16 = y := by
  rw [Nat.add_comm, Nat.add_mul_mod_self_right, Nat.mod_eq_of_lt hy]

theorem divAdd4 (x y : Nat) (hy : y < 4) : (x * 4 + y) / 4 = x := by
  rw [Nat.add_comm, Nat.add_mul_div_right _ _ (by norm_num : (0:Nat) < 4),
    Nat.div_eq_of_lt hy, Nat.zero_add]

theorem modAdd4 (x y : Nat) (hy : y < 4) : (x * 4 + y) % 4 = y := by
  rw [Nat.add_comm, Nat.add_mul_mod_self_right, Nat.mod_eq_of_lt hy]

/-- base64 round-trip: decoding the encoding of a byte list returns it. -/
theorem b64_roundtrip (bs : Bytes) (h : ∀ b ∈ bs, b < 256) :
    b64DecodeChunks (b64EncodeChunks bs) = bs := by
  induction bs using b64EncodeChunks.induct with
  | case1 => simp [b64EncodeChunks, b64DecodeChunks]
  | case2 a =>
      have ha : a < 256 := h a (by simp)
      have h1 : a / 4 < 64 := by omega
      have h2 : a % 4 * 16 < 64 := by omega
      simp only [b64EncodeChunks, b64DecodeChunks, if_pos rfl, if_true,
        b64Value_b64Char _ h1, b64Value_b64Char _ h2]
      rw [show a % 4 * 16 = a % 4 * 16 + 0 from rfl, divAdd16 _ _ (by omega)]
      have : a / 4 * 4 + a % 4 = a := by omega
      rw [this]
  | case3 a b =>
      have ha : a < 256 := h a (by simp)
      have hb : b < 256 := h b (by simp)
      have h1 : a / 4 < 64 := by omega
      have h2 : a % 4 * 16 + b / 16 < 64 := by omega
      have h3 : b % 16 * 4 < 64 := by omega
      simp only [b64EncodeChunks, b64DecodeChunks,
        if_neg (b64Char_ne_pad _ h3), if_pos rfl, if_true,
        b64Value_b64Char _ h1, b64Value_b64Char _ h2, b64Value_b64Char _ h3]
      rw [divAdd16 _ _ (by omega), modAdd16 _ _ (by omega),
        show b % 16 * 4 = b % 16 * 4 + 0 from rfl, divAdd4 _ _ (by omega)]
      have e1 : a / 4 * 4 + a % 4 = a := by omega
      have e2 : b / 16 * 16 + b % 16 = b := by omega
      rw [e1, e2]
  | case4 a b c rest ih =>
      have ha : a < 256 := h a (by simp)
      have hb : b < 256 := h b (by simp)
      have hc : c < 256 := h c (by simp)
      have h1 : a / 4 < 64 := by omega
      have h2 : a % 4 * 16 + b / 16 < 64 := by omega
      have h3 : b % 16 * 4 + c / 64 < 64 := by omega
      have h4 : c % 64 < 64 := by omega
      have ihr := ih (fun x hx => h x (by simp [hx]))
      simp only [b64EncodeChunks, b64DecodeChunks,
        if_neg (b64Char_ne_pad _ h3), if_neg (b64Char_ne_pad _ h4),
        b64Value_b64Char _ h1, b64Value_b64Char _ h2, b64Value_b64Char _ h3,
        b64Value_b64Char _ h4, ihr]
      rw [divAdd16 _ _ (by omega), modAdd16 _ _ (by omega),
        divAdd4 _ _ (by omega), modAdd4 _ _ (by omega)]
      have e1 : a / 4 * 4 + a % 4 = a := by omega
      have e2 : b / 16 * 16 + b % 16 = b := by omega
      have e3 : c / 64 * 64 + c % 64 = c := by omega
      rw [e1, e2, e3]

/-- base64 round-trip at the string level. -/
theorem base64_roundtrip (bs : Bytes) (h : ∀ b ∈ bs, b < 256) :
    base64ToBytes (bytesToBase64 bs) = bs :=
  b64_roundtrip bs h

/-! ## Frame lemmas: each reconciler touches only its own collection -/

theorem updateAlias_shape (ctx : Ctx) (v : Vertex) (a : AliasArg) :
    ∃ al, updateAlias ctx v a = { v with aliases := al } := by
  unfold updateAlias
  dsimp only
  split
  · exact ⟨_, rfl⟩
  · split
    · exact ⟨_, rfl⟩
    · split
      · exact ⟨_, rfl⟩
      · exact ⟨v.aliases, rfl⟩

theorem foldl_updateAlias_shape (ctx : Ctx) (l : List AliasArg) :
    ∀ v : Vertex, ∃ al, l.foldl (updateAlias ctx) v = { v with aliases := al } := by
  induction l with
  | nil => exact fun v => ⟨v.aliases, rfl⟩
  | cons a l ih =>
      intro v
      obtain ⟨al1, h1⟩ := updateAlias_shape ctx v a
      obtain ⟨al2, h2⟩ := ih (updateAlias ctx v a)
      refine ⟨al2, ?_⟩
      rw [List.foldl_cons, h2, h1]

theorem updateAliasList_shape (ctx : Ctx) (v : Vertex) (as? : Option (List AliasArg)) :
    ∃ al, updateAliasList ctx v as? = { v with aliases := al } := by
  unfold updateAliasList
  by_cases h : isArrayValue as?
  · simp only [h, if_true]
    obtain ⟨al, hal⟩ := foldl_updateAlias_shape ctx (as?.getD [])
      { v with aliases := v.aliases.map (List.map (fun x =>
          if x.deleted = none ∧ aliasNotInList as? x.id then
            { x with deleted := some ctx.now } else x)) }
    exact ⟨al, hal⟩
  · simp only [h, if_false]
    exact ⟨_, rfl⟩

theorem updateResource_shape (ctx : Ctx) (v : Vertex) (r : ResourceArg) :
    ∃ rl, updateResource ctx v r = { v with resources := rl } := by
  unfold updateResource
  dsimp only
  split
  · exact ⟨_, rfl⟩
  · split
    · exact ⟨_, rfl⟩
    · split
      · exact ⟨_, rfl⟩
      · exact ⟨v.resources, rfl⟩

theorem foldl_updateResource_shape (ctx : Ctx) (l : List ResourceArg) :
    ∀ v : Vertex, ∃ rl, l.foldl (updateResource ctx) v = { v with resources := rl } := by
  induction l with
  | nil => exact fun v => ⟨v.resources, rfl⟩
  | cons a l ih =>
      intro v
      obtain ⟨r1, h1⟩ := updateResource_shape ctx v a
      obtain ⟨r2, h2⟩ := ih (updateResource ctx v a)
      refine ⟨r2, ?_⟩
      rw [List.foldl_cons, h2, h1]

theorem updateResourceList_shape (ctx : Ctx) (v : Vertex) (rs? : Option (List ResourceArg)) :
    ∃ rl, updateResourceList ctx v rs? = { v with resources := rl } := by
  unfold updateResourceList
  by_cases h : isArrayValue rs?
  · simp only [h, if_true]
    obtain ⟨rl, hrl⟩ := foldl_updateResource_shape ctx (rs?.getD [])
      { v with resources := v.resources.map (List.map (fun x =>
          if x.deleted = none ∧ resourceNotInList rs? x.id then
            { x with deleted := some ctx.now } else x)) }
    exact ⟨rl, hrl⟩
  · simp only [h, if_false]
    exact ⟨_, rfl⟩

theorem updateEdge_shape (ctx : Ctx) (v : Vertex) (ed : EdgeArg) :
    ∃ el, updateEdge ctx v ed = { v with edges := el } := by
  unfold updateEdge
  dsimp only
  split
  · exact ⟨_, rfl⟩
  · split
    · exact ⟨_, rfl⟩
    · split
      · exact ⟨_, rfl⟩
      · exact ⟨v.edges, rfl⟩

theorem foldl_updateEdge_shape (ctx : Ctx) (l : List EdgeArg) :
    ∀ v : Vertex, ∃ el, l.foldl (updateEdge ctx) v = { v with edges := el } := by
  induction l with
  | nil => exact fun v => ⟨v.edges, rfl⟩
  | cons a l ih =>
      intro v
      obtain ⟨e1, h1⟩ := updateEdge_shape ctx v a
      obtain ⟨e2, h2⟩ := ih (updateEdge ctx v a)
      refine ⟨e2, ?_⟩
      rw [List.foldl_cons, h2, h1]

theorem updateEdgeList_shape (ctx : Ctx) (v : Vertex) (es? : Option (List EdgeArg)) :
    ∃ el, updateEdgeList ctx v es? = { v with edges := el } := by
  unfold updateEdgeList
  by_cases h : isArrayValue es?
  · simp only [h, if_true]
    obtain ⟨el, hel⟩ := foldl_updateEdge_shape ctx (es?.getD [])
      { v with edges := v.edges.map (List.map (fun x =>
          if x.deleted = none ∧ edgeNotInList es? x.id then
            { x with deleted := some ctx.now } else x)) }
    exact ⟨el, hel⟩
  · simp only [h, if_false]
    exact ⟨_, rfl⟩

/-- The whole mutation pipeline, as a frame: only the metadata fields and
the three collections change; id, identities, epochs and changesets are
untouched. -/
theorem reconcile_shape (ctx : Ctx) (v : Vertex) (ms md : Option String)
    (as? : Option (List AliasArg)) (rs? : Option (List ResourceArg))
    (es? : Option (List EdgeArg)) :
    ∃ A R E, reconcile ctx v ms md as? rs? es? =
      { v with metadataSchema := ms, metadata := md,
               aliases := A, resources := R, edges := E } := by
  obtain ⟨A, hA⟩ := updateAliasList_shape ctx
    { v with metadataSchema := ms, metadata := md } as?
  obtain ⟨R, hR⟩ := updateResourceList_shape ctx
    (updateAliasList ctx { v with metadataSchema := ms, metadata := md } as?) rs?
  obtain ⟨E, hE⟩ := updateEdgeList_shape ctx
    (updateResourceList ctx
      (updateAliasList ctx { v with metadataSchema := ms, metadata := md } as?) rs?) es?
  refine ⟨A, R, E, ?_⟩
  show updateEdgeList ctx
    (updateResourceList ctx
      (updateAliasList ctx { v with metadataSchema := ms, metadata := md } as?) rs?) es? = _
  rw [hE, hR, hA]

/-! ## Entity ↔ model conversion facts -/

theorem vertexModelToEntity_changesets (v : Vertex) :
    (vertexModelToEntity v).changesets =
      if isArrayValue v.changesets then some (v.changesets.getD []) else none := by
  have hid : (fun c : Changeset =>
      ({ created := c.created, userIdentity := c.userIdentity, patches := c.patches,
         hash := c.hash, immutableStorageId := c.immutableStorageId } : Changeset)) = id := rfl
  unfold vertexModelToEntity
  dsimp only
  rw [hid, List.map_id]
  split <;> split <;> split <;> split <;> rfl

theorem vertexEntityToModel_changesets (e : VertexEntity) :
    (vertexEntityToModel e).changesets =
      if isArrayValue e.changesets then some (e.changesets.getD []) else none := by
  have hid : (fun c : Changeset =>
      ({ created := c.created, userIdentity := c.userIdentity, patches := c.patches,
         hash := c.hash, immutableStorageId := c.immutableStorageId } : Changeset)) = id := rfl
  unfold vertexEntityToModel
  dsimp only
  rw [hid, List.map_id]
  split <;> split <;> split <;> split <;> rfl

theorem isArrayValue_false_getD {α : Type} (o : Option (List α))
    (h : ¬ isArrayValue o) : o.getD [] = [] := by
  cases o with
  | none => rfl
  | some l =>
      cases l with
      | nil => rfl
      | cons a t => simp [isArrayValue] at h

theorem vertexEntityToModel_changesets_getD (e : VertexEntity) :
    (vertexEntityToModel e).changesets.getD [] = e.changesets.getD [] := by
  rw [vertexEntityToModel_changesets]
  by_cases h : isArrayValue e.changesets
  · simp [h]
  · simp [h, isArrayValue_false_getD _ h]

theorem vertexModelToEntity_metadataSchema (v : Vertex) :
    (vertexModelToEntity v).metadataSchema = v.metadataSchema := by
  unfold vertexModelToEntity
  dsimp only
  split <;> split <;> split <;> split <;> rfl

theorem vertexModelToEntity_metadata (v : Vertex) :
    (vertexModelToEntity v).metadata = v.metadata := by
  unfold vertexModelToEntity
  dsimp only
  split <;> split <;> split <;> split <;> rfl

/-! ## Claim C3 — absent versus empty update lists -/

/-- C3 counterexample: a vertex holding one live alias, updated with the
alias list ABSENT (`none`), does not keep the collection untouched — the
alias is tombstoned with `deleted = now`, contradicting the claim that an
absent list means "do not touch this collection". -/
theorem claim3_counterexample :
    (updateAliasList ctx5 vOneLiveAlias none).aliases =
      some [{ id := "a", created := 1, deleted := some 5 }] := by
  rfl

/-- C3 (amended): the source does not distinguish an absent update list from
an empty one — for each of the three collections, passing nothing behaves
exactly like passing `[]`, and in both cases every live element of the
collection is marked `deleted = now` (already-tombstoned elements keep their
original deletion epoch). -/
theorem claim3_amended_absent_equals_empty (ctx : Ctx) (v : Vertex) :
    updateAliasList ctx v none = updateAliasList ctx v (some []) ∧
    updateResourceList ctx v none = updateResourceList ctx v (some []) ∧
    updateEdgeList ctx v none = updateEdgeList ctx v (some []) ∧
    (updateAliasList ctx v none).aliases = v.aliases.map (List.map (fun x =>
      if x.deleted = none then { x with deleted := some ctx.now } else x)) ∧
    (updateResourceList ctx v none).resources = v.resources.map (List.map (fun x =>
      if x.deleted = none then { x with deleted := some ctx.now } else x)) ∧
    (updateEdgeList ctx v none).edges = v.edges.map (List.map (fun x =>
      if x.deleted = none then { x with deleted := some ctx.now } else x)) := by
  refine ⟨?_, ?_, ?_, ?_, ?_, ?_⟩ <;>
    simp [updateAliasList, updateResourceList, updateEdgeList,
      aliasNotInList, resourceNotInList, edgeNotInList, isArrayValue]

/-! ## Claim C4 — when a changeset is appended -/

theorem addChangeset_fst (C : Collab) (sid : String) (ctx : Ctx) (o u : Vertex) :
    (addChangeset C sid ctx o u).1 = true ↔
      (C.diff o u ≠ [] ∨ o.changesets.getD [] = []) := by
  unfold addChangeset
  dsimp only
  split
  case isTrue h =>
    simp only [true_iff]
    rcases h with h | h
    · refine Or.inl (fun hnil => ?_)
      rw [hnil] at h
      simp at h
    · exact Or.inr (List.length_eq_zero.mp h)
  case isFalse h =>
    constructor
    · intro hc
      exact absurd hc (by simp)
    · rintro (h1 | h1) <;> exfalso <;> apply h
      · exact Or.inl (List.length_pos.mpr h1)
      · exact Or.inr (by rw [h1]; rfl)

theorem create_changesets_length (C : Collab) (sid : String) (ctx : Ctx)
    (idHex : String) (ms md : Option String) (as? : Option (List AliasArg))
    (rs? : Option (List ResourceArg)) (es? : Option (List EdgeArg)) :
    ((create C sid ctx idHex ms md as? rs? es?).changesets.getD []).length = 1 := by
  unfold create addChangeset
  dsimp only
  simp only [Option.getD_none, List.length_nil, List.nil_append]
  rw [if_pos (Or.inr trivial)]
  rw [vertexModelToEntity_changesets]
  rfl

theorem update_none_iff (C : Collab) (sid : String) (ctx : Ctx) (e : VertexEntity)
    (ms md : Option String) (as? : Option (List AliasArg))
    (rs? : Option (List ResourceArg)) (es? : Option (List EdgeArg)) :
    update C sid ctx e ms md as? rs? es? = none ↔
      (C.diff (vertexEntityToModel e)
        (reconcile ctx (vertexEntityToModel e) ms md as? rs? es?) = [] ∧
       (vertexEntityToModel e).changesets.getD [] ≠ []) := by
  have hfst := addChangeset_fst C sid ctx (vertexEntityToModel e)
    (reconcile ctx (vertexEntityToModel e) ms md as? rs? es?)
  unfold update
  dsimp only
  split
  case isTrue h =>
    have hd := hfst.mp h
    constructor
    · intro hc
      exact absurd hc (by simp)
    · rintro ⟨h1, h2⟩
      exfalso
      rcases hd with h3 | h3
      · exact h3 h1
      · exact h2 h3
  case isFalse h =>
    simp only [true_iff]
    by_cases h1 : C.diff (vertexEntityToModel e)
        (reconcile ctx (vertexEntityToModel e) ms md as? rs? es?) = []
    · by_cases h2 : (vertexEntityToModel e).changesets.getD [] = []
      · exact absurd (hfst.mpr (Or.inr h2)) h
      · exact ⟨h1, h2⟩
    · exact absurd (hfst.mpr (Or.inl h1)) h

/-- C4: a changeset is appended iff the computed patch list is non-empty or
the vertex has no prior changeset; `create` always writes exactly one first
changeset even when its diff is empty; an `update` whose diff against the
prior snapshot is empty while a changeset exists performs no persistence
(it returns without writing, so no changeset is appended and the stored
`updated` field stays as it was). -/
theorem claim4_changeset_append_iff (C : Collab) (sid : String) (ctx : Ctx)
    (o u : Vertex) (e : VertexEntity) (idHex : String)
    (ms md : Option String) (as? : Option (List AliasArg))
    (rs? : Option (List ResourceArg)) (es? : Option (List EdgeArg)) :
    ((addChangeset C sid ctx o u).1 = true ↔
      (C.diff o u ≠ [] ∨ o.changesets.getD [] = [])) ∧
    ((create C sid ctx idHex ms md as? rs? es?).changesets.getD []).length = 1 ∧
    (update C sid ctx e ms md as? rs? es? = none ↔
      (C.diff (vertexEntityToModel e)
        (reconcile ctx (vertexEntityToModel e) ms md as? rs? es?) = [] ∧
       (vertexEntityToModel e).changesets.getD [] ≠ [])) :=
  ⟨addChangeset_fst C sid ctx o u,
   create_changesets_length C sid ctx idHex ms md as? rs? es?,
   update_none_iff C sid ctx e ms md as? rs? es?⟩

/-! ## Claim C6 — the aliasIndex invariant -/

theorem isArrayValue_iff_cons {α : Type} (o : Option (List α)) :
    isArrayValue o = true ↔ ∃ x xs, o = some (x :: xs) := by
  cases o with
  | none => simp [isArrayValue]
  | some l =>
      cases l with
      | nil => simp [isArrayValue]
      | cons x xs => simp [isArrayValue]

theorem alias_fold_snd (l : List AIGAlias) :
    ∀ acc : List AIGAlias × List String,
    (l.foldl (fun (st : List AIGAlias × List String) am =>
      (st.1 ++ [{ id := am.id, created := am.created, deleted := am.deleted,
                  metadataSchema := am.metadataSchema, metadata := am.metadata }],
       st.2 ++ [am.id])) acc).2 = acc.2 ++ l.map (fun a => a.id) := by
  induction l with
  | nil => intro acc; simp
  | cons a t ih =>
      intro acc
      rw [List.foldl_cons, ih]
      simp

/-- C6: for every persisted vertex, the stored `aliasIndex` is the
lowercased `||`-join of the ids of ALL the vertex's aliases — live and
tombstoned alike — in insertion order, and the field is absent exactly when
the vertex has no aliases. -/
theorem claim6_aliasIndex (v : Vertex) :
    (vertexModelToEntity v).aliasIndex =
      if (v.aliases.getD []).isEmpty then none
      else some (String.toLower (String.intercalate "||"
        ((v.aliases.getD []).map (fun a => a.id)))) := by
  unfold vertexModelToEntity
  dsimp only
  by_cases h : isArrayValue v.aliases
  · obtain ⟨x, xs, hx⟩ := (isArrayValue_iff_cons v.aliases).mp h
    rw [hx] at h ⊢
    simp only [h, if_true, Option.getD_some]
    rw [alias_fold_snd]
    simp only [List.nil_append, List.isEmpty_cons, if_false]
    split <;> split <;> split <;> rfl
  · have h0 : v.aliases.getD [] = [] := isArrayValue_false_getD _ (by simpa using h)
    simp only [eq_false_intro h, if_false, h0, List.isEmpty_nil, if_true]
    split <;> split <;> split <;> rfl

/-! ## Claim C7 — `get` filtering -/

theorem vertexEntityToModel_aliases_ne_nil (e : VertexEntity) :
    (vertexEntityToModel e).aliases ≠ some [] := by
  unfold vertexEntityToModel
  dsimp only
  by_cases h : isArrayValue e.aliases
  · obtain ⟨x, xs, hx⟩ := (isArrayValue_iff_cons e.aliases).mp h
    rw [hx] at h ⊢
    simp only [h, if_true, Option.getD_some]
    split <;> split <;> split <;> simp
  · simp only [eq_false_intro h, if_false]
    split <;> split <;> split <;> simp

theorem vertexEntityToModel_resources_ne_nil (e : VertexEntity) :
    (vertexEntityToModel e).resources ≠ some [] := by
  unfold vertexEntityToModel
  dsimp only
  by_cases h : isArrayValue e.resources
  · obtain ⟨x, xs, hx⟩ := (isArrayValue_iff_cons e.resources).mp h
    rw [hx] at h ⊢
    simp only [h, if_true, Option.getD_some]
    split <;> split <;> split <;> simp
  · simp only [eq_false_intro h, if_false]
    split <;> split <;> split <;> simp

theorem vertexEntityToModel_edges_ne_nil (e : VertexEntity) :
    (vertexEntityToModel e).edges ≠ some [] := by
  unfold vertexEntityToModel
  dsimp only
  by_cases h : isArrayValue e.edges
  · obtain ⟨x, xs, hx⟩ := (isArrayValue_iff_cons e.edges).mp h
    rw [hx] at h ⊢
    simp only [h, if_true, Option.getD_some]
    split <;> split <;> split <;> simp
  · simp only [eq_false_intro h, if_false]
    split <;> split <;> split <;> simp

/-- C7: unless `includeDeleted`, every tombstoned sub-element is removed
from the returned vertex and a collection that becomes empty is dropped
entirely (it is never returned as an empty list); unless
`includeChangesets`, the `changesets` field is stripped. -/
theorem claim7_get_filters (C : Collab) (e : VertexEntity)
    (ic : Bool) (dep : Option VDepth) :
    (∀ a ∈ (get C e false ic dep).vertex.aliases.getD [], a.deleted = none) ∧
    (∀ r ∈ (get C e false ic dep).vertex.resources.getD [], r.deleted = none) ∧
    (∀ x ∈ (get C e false ic dep).vertex.edges.getD [], x.deleted = none) ∧
    (get C e false ic dep).vertex.aliases ≠ some [] ∧
    (get C e false ic dep).vertex.resources ≠ some [] ∧
    (get C e false ic dep).vertex.edges ≠ some [] ∧
    (∀ id2 : Bool, (get C e id2 false dep).vertex.changesets = none) := by
  unfold get
  dsimp only
  simp only [apply_ite (fun v : Vertex => v.aliases),
    apply_ite (fun v : Vertex => v.resources), apply_ite (fun v : Vertex => v.edges),
    apply_ite (fun v : Vertex => v.changesets), ite_self]
  have hT : (¬ false = true) := by decide
  refine ⟨?_, ?_, ?_, ?_, ?_, ?_, ?_⟩
  · rw [if_pos hT]
    intro a ha
    split at ha
    · split at ha
      · simp at ha
      · rw [Option.getD_some] at ha
        have := (List.mem_filter.mp ha).2
        simpa using this
    · next h =>
        rw [isArrayValue_false_getD _ h] at ha
        simp at ha
  · rw [if_pos hT]
    intro r hr
    split at hr
    · split at hr
      · simp at hr
      · rw [Option.getD_some] at hr
        have := (List.mem_filter.mp hr).2
        simpa using this
    · next h =>
        rw [isArrayValue_false_getD _ h] at hr
        simp at hr
  · rw [if_pos hT]
    intro x hx
    split at hx
    · split at hx
      · simp at hx
      · rw [Option.getD_some] at hx
        have := (List.mem_filter.mp hx).2
        simpa using this
    · next h =>
        rw [isArrayValue_false_getD _ h] at hx
        simp at hx
  · rw [if_pos hT]
    split
    · split
      · simp
      · next hlen =>
          simp only [ne_eq, Option.some.injEq]
          intro hc
          rw [hc] at hlen
          simp at hlen
    · exact vertexEntityToModel_aliases_ne_nil e
  · rw [if_pos hT]
    split
    · split
      · simp
      · next hlen =>
          simp only [ne_eq, Option.some.injEq]
          intro hc
          rw [hc] at hlen
          simp at hlen
    · exact vertexEntityToModel_resources_ne_nil e
  · rw [if_pos hT]
    split
    · split
      · simp
      · next hlen =>
          simp only [ne_eq, Option.some.injEq]
          intro hc
          rw [hc] at hlen
          simp at hlen
    · exact vertexEntityToModel_edges_ne_nil e
  · intro id2
    rw [if_pos hT]

/-! ## Claim C9 — omitted metadata arguments overwrite -/

theorem isArrayValue_some_append {α : Type} (l : List α) (x : α) :
    isArrayValue (some (l ++ [x])) = true := by
  simp [isArrayValue]

/-- The stored entity written by a persisting `update`, in closed form. -/
theorem update_some_eq (C : Collab) (sid : String) (ctx : Ctx) (e : VertexEntity)
    (ms md : Option String) (as? : Option (List AliasArg))
    (rs? : Option (List ResourceArg)) (es? : Option (List EdgeArg))
    (h : C.diff (vertexEntityToModel e)
      (reconcile ctx (vertexEntityToModel e) ms md as? rs? es?) ≠ [] ∨
      (vertexEntityToModel e).changesets.getD [] = []) :
    update C sid ctx e ms md as? rs? es? =
      some (vertexModelToEntity
        { reconcile ctx (vertexEntityToModel e) ms md as? rs? es? with
          updated := ctx.now,
          changesets := some ((vertexEntityToModel e).changesets.getD [] ++
            [{ created := ctx.now, userIdentity := ctx.userIdentity,
               patches := C.diff (vertexEntityToModel e)
                 (reconcile ctx (vertexEntityToModel e) ms md as? rs? es?),
               hash := bytesToBase64 (C.blake2b (chainInput C.serPatches
                 (prevChainLink ((vertexEntityToModel e).changesets.getD []))
                 ctx.now ctx.userIdentity
                 (C.diff (vertexEntityToModel e)
                   (reconcile ctx (vertexEntityToModel e) ms md as? rs? es?)))),
               immutableStorageId := some sid }]) }) := by
  unfold update addChangeset
  dsimp only
  rcases h with h | h
  · rw [if_pos (Or.inl (List.length_pos.mpr h))]
    rfl
  · rw [if_pos (Or.inr (by rw [h]; rfl))]
    rfl

/-- C9: `update` overwrites the vertex's `metadataSchema` and `metadata`
with the passed arguments unconditionally, so omitting them clears any
previously stored values; with the spec-modelled diff engine the new
changeset then carries the corresponding `remove` patches. -/
theorem claim9_metadata_overwrite (C : Collab) (hdiff : C.diff = diffMetaFields)
    (sid : String) (ctx : Ctx) (e : VertexEntity) (ms0 md0 : String)
    (hms : (vertexEntityToModel e).metadataSchema = some ms0)
    (hmd : (vertexEntityToModel e).metadata = some md0)
    (as? : Option (List AliasArg)) (rs? : Option (List ResourceArg))
    (es? : Option (List EdgeArg)) :
    ∃ e2, update C sid ctx e none none as? rs? es? = some e2 ∧
      e2.metadataSchema = none ∧ e2.metadata = none ∧
      ∃ cs, (e2.changesets.getD []).getLast? = some cs ∧
        ({ op := PatchOp.remove, path := "/metadataSchema" } : Patch) ∈ cs.patches ∧
        ({ op := PatchOp.remove, path := "/metadata" } : Patch) ∈ cs.patches := by
  obtain ⟨A, R, E, hv4⟩ := reconcile_shape ctx (vertexEntityToModel e) none none as? rs? es?
  have hpatch : C.diff (vertexEntityToModel e)
      (reconcile ctx (vertexEntityToModel e) none none as? rs? es?) =
      [{ op := PatchOp.remove, path := "/metadataSchema" },
       { op := PatchOp.remove, path := "/metadata" }] := by
    rw [hdiff, hv4]
    unfold diffMetaFields
    rw [hms, hmd]
    rfl
  have hne : C.diff (vertexEntityToModel e)
      (reconcile ctx (vertexEntityToModel e) none none as? rs? es?) ≠ [] := by
    rw [hpatch]
    simp
  rw [update_some_eq C sid ctx e none none as? rs? es? (Or.inl hne)]
  refine ⟨_, rfl, ?_, ?_, ?_⟩
  · rw [vertexModelToEntity_metadataSchema]
    show (reconcile ctx (vertexEntityToModel e) none none as? rs? es?).metadataSchema = none
    rw [hv4]
  · rw [vertexModelToEntity_metadata]
    show (reconcile ctx (vertexEntityToModel e) none none as? rs? es?).metadata = none
    rw [hv4]
  · rw [vertexModelToEntity_changesets]
    dsimp only
    rw [if_pos (isArrayValue_some_append _ _)]
    simp only [Option.getD_some, List.getLast?_concat]
    refine ⟨_, rfl, ?_, ?_⟩ <;> rw [hpatch] <;> simp

/-! ## Hash-chain lemmas -/

theorem specChainOk_snoc (H : Bytes → Bytes) (ser : List Patch → Bytes)
    (cs : List Changeset) (c : Changeset) :
    ∀ prev, specChainOk H ser prev cs →
    c.hash = bytesToBase64 (H (chainInput ser (rawAfter H ser prev cs)
      c.created c.userIdentity c.patches)) →
    specChainOk H ser prev (cs ++ [c]) := by
  induction cs with
  | nil =>
      intro prev _ hc
      exact ⟨hc, trivial⟩
  | cons d t ih =>
      intro prev h hc
      exact ⟨h.1, ih _ h.2 hc⟩

theorem specChainOk_getLast (H : Bytes → Bytes) (ser : List Patch → Bytes)
    (cs : List Changeset) :
    ∀ prev, specChainOk H ser prev cs → cs ≠ [] →
    ∃ last, cs.getLast? = some last ∧
      last.hash = bytesToBase64 (rawAfter H ser prev cs) := by
  induction cs with
  | nil =>
      intro prev _ h
      exact absurd rfl h
  | cons d t ih =>
      intro prev h _
      cases t with
      | nil => exact ⟨d, rfl, h.1⟩
      | cons d2 t2 =>
          obtain ⟨last, hl, hh⟩ := ih _ h.2 (by simp)
          exact ⟨last, by rw [List.getLast?_cons_cons]; exact hl, hh⟩

theorem rawAfter_image (H : Bytes → Bytes) (ser : List Patch → Bytes)
    (cs : List Changeset) :
    ∀ prev, cs ≠ [] → ∃ x, rawAfter H ser prev cs = H x := by
  induction cs with
  | nil =>
      intro prev h
      exact absurd rfl h
  | cons d t ih =>
      intro prev _
      cases t with
      | nil => exact ⟨_, rfl⟩
      | cons d2 t2 => exact ih _ (by simp)

/-- Along a valid chain, the base64-decoded stored hash of the last
changeset is the raw digest the chain replay reaches. -/
theorem prevChainLink_eq_rawAfter (H : Bytes → Bytes) (ser : List Patch → Bytes)
    (hH : ∀ x, ∀ b ∈ H x, b < 256)
    (cs : List Changeset) (h : specChainOk H ser [] cs) :
    prevChainLink cs = rawAfter H ser [] cs := by
  cases hcs : cs with
  | nil => rfl
  | cons d t =>
      have hne : cs ≠ [] := by rw [hcs]; simp
      obtain ⟨last, hl, hh⟩ := specChainOk_getLast H ser cs [] h hne
      obtain ⟨x, hx⟩ := rawAfter_image H ser cs [] hne
      rw [← hcs]
      unfold prevChainLink
      rw [hl]
      show base64ToBytes last.hash = _
      rw [hh, hx]
      exact base64_roundtrip _ (hH x)

/-- The closed form of the `create` entity's changesets: exactly one, hashed
from the empty link. -/
theorem create_changesets_eq (C : Collab) (sid : String) (ctx : Ctx)
    (idHex : String) (ms md : Option String) (as? : Option (List AliasArg))
    (rs? : Option (List ResourceArg)) (es? : Option (List EdgeArg)) :
    (create C sid ctx idHex ms md as? rs? es?).changesets =
      some [{ created := ctx.now, userIdentity := ctx.userIdentity,
              patches := C.diff
                { id := idHex, nodeIdentity := ctx.nodeIdentity,
                  created := ctx.now, updated := ctx.now }
                (reconcile ctx
                  { id := idHex, nodeIdentity := ctx.nodeIdentity,
                    created := ctx.now, updated := ctx.now } ms md as? rs? es?),
              hash := bytesToBase64 (C.blake2b (chainInput C.serPatches []
                ctx.now ctx.userIdentity
                (C.diff
                  { id := idHex, nodeIdentity := ctx.nodeIdentity,
                    created := ctx.now, updated := ctx.now }
                  (reconcile ctx
                    { id := idHex, nodeIdentity := ctx.nodeIdentity,
                      created := ctx.now, updated := ctx.now } ms md as? rs? es?)))),
              immutableStorageId := some sid }] := by
  unfold create addChangeset
  dsimp only
  simp only [Option.getD_none, List.length_nil, List.nil_append]
  rw [if_pos (Or.inr trivial)]
  rw [vertexModelToEntity_changesets]
  rfl

/-- Every vertex entity written by `create` satisfies the specification's
hash-chain formula. -/
theorem create_chainOk (C : Collab) (sid : String) (ctx : Ctx)
    (idHex : String) (ms md : Option String) (as? : Option (List AliasArg))
    (rs? : Option (List ResourceArg)) (es? : Option (List EdgeArg)) :
    specChainOk C.blake2b C.serPatches []
      ((create C sid ctx idHex ms md as? rs? es?).changesets.getD []) := by
  rw [create_changesets_eq]
  exact ⟨rfl, trivial⟩

/-- One `update` step preserves the specification's hash-chain formula. -/
theorem applyUpdate_chainOk (C : Collab)
    (hH : ∀ x, ∀ b ∈ C.blake2b x, b < 256)
    (e : VertexEntity) (a : UpdateArgs)
    (h : specChainOk C.blake2b C.serPatches [] (e.changesets.getD [])) :
    specChainOk C.blake2b C.serPatches []
      ((applyUpdate C e a).changesets.getD []) := by
  unfold applyUpdate
  by_cases hd : C.diff (vertexEntityToModel e)
      (reconcile a.ctx (vertexEntityToModel e) a.metadataSchema a.metadata
        a.aliases a.resources a.edges) ≠ [] ∨
      (vertexEntityToModel e).changesets.getD [] = []
  · rw [update_some_eq C a.sid a.ctx e a.metadataSchema a.metadata
      a.aliases a.resources a.edges hd]
    dsimp only
    rw [vertexModelToEntity_changesets]
    dsimp only
    rw [if_pos (isArrayValue_some_append _ _), Option.getD_some]
    have hcs : (vertexEntityToModel e).changesets.getD [] = e.changesets.getD [] :=
      vertexEntityToModel_changesets_getD e
    rw [hcs]
    refine specChainOk_snoc C.blake2b C.serPatches _ _ [] h ?_
    dsimp only
    rw [prevChainLink_eq_rawAfter C.blake2b C.serPatches hH _ h]
  · rw [(update_none_iff C a.sid a.ctx e a.metadataSchema a.metadata
      a.aliases a.resources a.edges).mpr (by tauto)]
    exact h

theorem applyUpdates_chainOk (C : Collab)
    (hH : ∀ x, ∀ b ∈ C.blake2b x, b < 256) (ops : List UpdateArgs) :
    ∀ e, specChainOk C.blake2b C.serPatches [] (e.changesets.getD []) →
    specChainOk C.blake2b C.serPatches []
      ((applyUpdates C e ops).changesets.getD []) := by
  induction ops with
  | nil => exact fun e h => h
  | cons a t ih =>
      intro e h
      exact ih (applyUpdate C e a) (applyUpdate_chainOk C hH e a h)

/-! ## Claim C2 — the hash-chain formula and the signer input -/

/-- C2: for every vertex reachable by a `create` followed by any sequence of
`update`s, every stored changeset hash is the base64 of Blake2b over the
byte concatenation of the previous changeset's RAW digest (empty for the
first), the ASCII decimal of `created`, the UTF-8 user identity and the
serialized patches; and whenever a changeset is produced, the signer is fed
the raw digest itself, never its base64. -/
theorem claim2_hash_chain (C : Collab)
    (hH : ∀ x, ∀ b ∈ C.blake2b x, b < 256)
    (sid : String) (ctx : Ctx) (idHex : String) (ms md : Option String)
    (as? : Option (List AliasArg)) (rs? : Option (List ResourceArg))
    (es? : Option (List EdgeArg)) (ops : List UpdateArgs) :
    specChainOk C.blake2b C.serPatches []
      ((applyUpdates C (create C sid ctx idHex ms md as? rs? es?) ops).changesets.getD []) ∧
    (∀ (sid2 : String) (ctx2 : Ctx) (o u : Vertex),
      (addChangeset C sid2 ctx2 o u).1 = true →
      (addChangeset C sid2 ctx2 o u).2.2 =
        some (bytesToBase64 (C.sign (C.blake2b (chainInput C.serPatches
          (prevChainLink (o.changesets.getD [])) ctx2.now ctx2.userIdentity
          (C.diff o u)))))) := by
  constructor
  · exact applyUpdates_chainOk C hH ops _
      (create_chainOk C sid ctx idHex ms md as? rs? es?)
  · intro sid2 ctx2 o u h
    unfold addChangeset at h ⊢
    dsimp only at h ⊢
    split at h
    · next hcond => rw [if_pos hcond]
    · simp at h

/-- C2 witness at a concrete instance (empty digest function, empty diff,
one further no-op update). -/
theorem claim2_hash_chain_witness :
    (∀ x, ∀ b ∈ trivialCollab.blake2b x, b < 256) ∧
    (specChainOk trivialCollab.blake2b trivialCollab.serPatches []
      ((applyUpdates trivialCollab
        (create trivialCollab "log:1" ctx5 "aa" none none none none none)
        [{ sid := "log:2", ctx := ctx5 }]).changesets.getD []) ∧
    (∀ (sid2 : String) (ctx2 : Ctx) (o u : Vertex),
      (addChangeset trivialCollab sid2 ctx2 o u).1 = true →
      (addChangeset trivialCollab sid2 ctx2 o u).2.2 =
        some (bytesToBase64 (trivialCollab.sign (trivialCollab.blake2b
          (chainInput trivialCollab.serPatches
            (prevChainLink (o.changesets.getD [])) ctx2.now ctx2.userIdentity
            (trivialCollab.diff o u))))))) :=
  ⟨fun _ b hb => absurd hb (List.not_mem_nil b),
   claim2_hash_chain trivialCollab (fun _ b hb => absurd hb (List.not_mem_nil b))
     "log:1" ctx5 "aa" none none none none none [{ sid := "log:2", ctx := ctx5 }]⟩

/-! ## Claim C1 — hash mismatch reporting and the aggregate flag -/

/-- C1 (code divergence, at the failing input `eTampered`): reading the
vertex with full verification after its first stored changeset hash was
corrupted records `invalidChangesetHash` on that changeset and still
processes and reports the subsequent changeset — but the aggregate
`verified` flag remains `true`, because the source only assigns
`verified = false` inside the signature-scope branch, which a changeset
failing the hash comparison never enters.  The claim (and spec §4.G step 2)
say the vertex must be marked unverified. -/
theorem claim1_code_divergence :
    (get trivialCollab eTampered false false (some VDepth.all)).verified = some true ∧
    (get trivialCollab eTampered false false (some VDepth.all)).verification =
      some [{ created := 1, patches := [], failure := some "invalidChangesetHash" },
            { created := 2, patches := [], failure := none }] := by
  constructor
  · rfl
  · rfl

/-! ## Claim C10 — verification chains on the recomputed digest -/

theorem verifyStepFailure_ne_invalidHash (C : Collab) (c : Changeset) (vh : Bytes) :
    verifyStepFailure C c vh ≠ some "invalidChangesetHash" := by
  intro hfail
  unfold verifyStepFailure at hfail
  repeat' split at hfail
  all_goals try simp_all
  all_goals split_ifs at hfail <;> try simp_all
  all_goals repeat' split at hfail
  all_goals simp_all

/-- Every verification entry reports `invalidChangesetHash` exactly when the
stored hash differs from the base64 of the digest recomputed along the chain
of RECOMPUTED digests (`rawAt`), which never reads stored hashes. -/
theorem verifyLoop_entry (C : Collab) (depth : VDepth) (n : Nat) (cs : List Changeset) :
    ∀ (i : Nat) (prev : Bytes) (vf : Bool) (j : Nat) (c : Changeset),
    cs.get? j = some c →
    ∃ en, (verifyLoop C depth n i prev vf cs).2.get? j = some en ∧
      en.created = c.created ∧ en.patches = c.patches ∧
      (en.failure = some "invalidChangesetHash" ↔
        bytesToBase64 (rawAt C.blake2b C.serPatches prev cs j) ≠ c.hash) := by
  induction cs with
  | nil =>
      intro i prev vf j c hc
      simp at hc
  | cons d rest ih =>
      intro i prev vf j c hc
      cases j with
      | zero =>
          rw [List.get?_cons_zero] at hc
          injection hc with hc
          subst hc
          simp only [verifyLoop]
          rw [List.get?_cons_zero]
          refine ⟨_, rfl, rfl, rfl, ?_⟩
          by_cases hcond : bytesToBase64 (C.blake2b (chainInput C.serPatches prev
              d.created d.userIdentity d.patches)) ≠ d.hash
          · rw [if_pos hcond]
            exact ⟨fun _ => hcond, fun _ => rfl⟩
          · rw [if_neg hcond]
            constructor
            · intro hfail
              exfalso
              split at hfail
              · exact verifyStepFailure_ne_invalidHash C d _ hfail
              · cases hfail
            · intro hr
              exact absurd hr hcond
      | succ j =>
          rw [List.get?_cons_succ] at hc
          simp only [verifyLoop]
          rw [List.get?_cons_succ]
          exact ih (i + 1) _ _ j c hc

theorem rawAt_set_hash (H : Bytes → Bytes) (ser : List Patch → Bytes) (h2 : String) :
    ∀ (cs : List Changeset) (i : Nat) (c : Changeset), cs.get? i = some c →
    ∀ (prev : Bytes) (j : Nat),
    rawAt H ser prev (cs.set i { c with hash := h2 }) j = rawAt H ser prev cs j := by
  intro cs
  induction cs with
  | nil =>
      intro i c hc
      simp at hc
  | cons d t ih =>
      intro i c hc prev j
      cases i with
      | zero =>
          rw [List.get?_cons_zero] at hc
          injection hc with hc
          subst hc
          cases j with
          | zero => rfl
          | succ j => rfl
      | succ i =>
          rw [List.get?_cons_succ] at hc
          cases j with
          | zero => rfl
          | succ j => exact ih i c hc _ j

theorem specChainOk_get (H : Bytes → Bytes) (ser : List Patch → Bytes)
    (cs : List Changeset) :
    ∀ prev, specChainOk H ser prev cs →
    ∀ (j : Nat) (c : Changeset), cs.get? j = some c →
    c.hash = bytesToBase64 (rawAt H ser prev cs j) := by
  induction cs with
  | nil =>
      intro prev _ j c hc
      simp at hc
  | cons d t ih =>
      intro prev h j c hc
      cases j with
      | zero =>
          rw [List.get?_cons_zero] at hc
          injection hc with hc
          subst hc
          exact h.1
      | succ j =>
          rw [List.get?_cons_succ] at hc
          exact ih _ h.2 j c hc

/-- C10: the chain link fed into the recomputed digest of changeset `i+1` is
the locally recomputed digest of changeset `i`, not its stored hash — so
when only the stored hash of changeset `i` is altered out-of-band, the
verification of a vertex whose chain was previously valid reports
`invalidChangesetHash` exactly at `i`, while the hash check of every other
changeset (before and after `i`) still passes. -/
theorem claim10_verify_chains_recomputed (C : Collab)
    (cs : List Changeset) (hvalid : specChainOk C.blake2b C.serPatches [] cs)
    (i : Nat) (ci : Changeset) (hci : cs.get? i = some ci)
    (h2 : String) (hne : h2 ≠ ci.hash)
    (v : Vertex) (hv : v.changesets = some (cs.set i { ci with hash := h2 })) :
    (∃ en, (verifyChangesets C v VDepth.all).2.get? i = some en ∧
      en.failure = some "invalidChangesetHash") ∧
    (∀ (j : Nat) (c : Changeset) (en2 : VerifyEntry), j ≠ i → cs.get? j = some c →
      (verifyChangesets C v VDepth.all).2.get? j = some en2 →
      en2.failure ≠ some "invalidChangesetHash") := by
  have hloop : verifyChangesets C v VDepth.all =
      verifyLoop C VDepth.all (cs.set i { ci with hash := h2 }).length 0 [] true
        (cs.set i { ci with hash := h2 }) := by
    unfold verifyChangesets
    rw [hv]
    rfl
  constructor
  · have hgi : (cs.set i { ci with hash := h2 }).get? i = some { ci with hash := h2 } := by
      rw [List.get?_set_eq, hci]
      rfl
    obtain ⟨en, hen, _, _, hiff⟩ := verifyLoop_entry C VDepth.all
      (cs.set i { ci with hash := h2 }).length (cs.set i { ci with hash := h2 })
      0 [] true i { ci with hash := h2 } hgi
    refine ⟨en, by rw [hloop]; exact hen, ?_⟩
    apply hiff.mpr
    rw [rawAt_set_hash C.blake2b C.serPatches h2 cs i ci hci]
    rw [← specChainOk_get C.blake2b C.serPatches cs [] hvalid i ci hci]
    show ci.hash ≠ h2
    exact fun hx => hne hx.symm
  · intro j c en2 hji hcj hen2
    have hgj : (cs.set i { ci with hash := h2 }).get? j = some c := by
      rw [List.get?_set_ne _ _ (fun hx => hji hx.symm), hcj]
    obtain ⟨en, hen, _, _, hiff⟩ := verifyLoop_entry C VDepth.all
      (cs.set i { ci with hash := h2 }).length (cs.set i { ci with hash := h2 })
      0 [] true j c hgj
    rw [hloop] at hen2
    rw [hen2] at hen
    injection hen with hen
    subst hen
    intro hfail
    have := hiff.mp hfail
    apply this
    rw [rawAt_set_hash C.blake2b C.serPatches h2 cs i ci hci]
    exact (specChainOk_get C.blake2b C.serPatches cs [] hvalid j c hcj).symm

/-! ## Claim C8 — removeImmutable -/

theorem removeImmutable_fold (l : List Changeset)
    (hsid : ∀ c ∈ l, c.immutableStorageId ≠ some "") :
    ∀ acc : List Changeset × List String,
    (l.foldl (fun (st : List Changeset × List String) c =>
      if isStringValue c.immutableStorageId then
        (st.1 ++ [{ c with immutableStorageId := none }],
         st.2 ++ [c.immutableStorageId.getD ""])
      else (st.1 ++ [c], st.2)) acc) =
    (acc.1 ++ l.map (fun c => { c with immutableStorageId := none }),
     acc.2 ++ l.filterMap (fun c => c.immutableStorageId)) := by
  induction l with
  | nil => intro acc; simp
  | cons c t ih =>
      intro acc
      rw [List.foldl_cons]
      have ih2 := ih (fun x hx => hsid x (List.mem_cons_of_mem c hx))
      cases hc : c.immutableStorageId with
      | none =>
          rw [if_neg (by simp [isStringValue])]
          rw [ih2]
          have hcc : ({ c with immutableStorageId := none } : Changeset) = c := by
            cases c
            simp_all
          simp [hcc, hc]
      | some s =>
          have hs : ¬ s.isEmpty := by
            intro hemp
            exact hsid c (by simp) (by rw [hc, (String.isEmpty_iff s).mp hemp])
          rw [if_pos (by simpa [isStringValue] using hs)]
          rw [ih2]
          simp [hc]

/-- `removeImmutable` clears the `immutableStorageId` of every changeset
that carries one (collecting exactly those ids for the immutable log's
`remove`) and leaves every other part of the stored entity untouched. -/
theorem removeImmutable_spec (e : VertexEntity)
    (hsid : ∀ c ∈ e.changesets.getD [], c.immutableStorageId ≠ some "") :
    (removeImmutable e).1.changesets.getD [] = (e.changesets.getD []).map
      (fun c => { c with immutableStorageId := none }) ∧
    (removeImmutable e).2 = (e.changesets.getD []).filterMap
      (fun c => c.immutableStorageId) ∧
    (removeImmutable e).1.id = e.id ∧
    (removeImmutable e).1.nodeIdentity = e.nodeIdentity ∧
    (removeImmutable e).1.created = e.created ∧
    (removeImmutable e).1.updated = e.updated ∧
    (removeImmutable e).1.metadataSchema = e.metadataSchema ∧
    (removeImmutable e).1.metadata = e.metadata ∧
    (removeImmutable e).1.aliasIndex = e.aliasIndex ∧
    (removeImmutable e).1.aliases = e.aliases ∧
    (removeImmutable e).1.resources = e.resources ∧
    (removeImmutable e).1.edges = e.edges := by
  unfold removeImmutable
  by_cases h : isArrayValue e.changesets
  · simp only [h, if_true]
    rw [removeImmutable_fold (e.changesets.getD []) hsid ([], [])]
    simp
  · simp only [h, if_false]
    simp [isArrayValue_false_getD _ h]

theorem verifyStepFailure_none (C : Collab) (c : Changeset) (vh : Bytes)
    (h : c.immutableStorageId = none) : verifyStepFailure C c vh = none := by
  unfold verifyStepFailure
  rw [h]

theorem specChainOk_clear_sid (H : Bytes → Bytes) (ser : List Patch → Bytes)
    (cs : List Changeset) :
    ∀ prev, specChainOk H ser prev cs →
    specChainOk H ser prev (cs.map (fun c => { c with immutableStorageId := none })) := by
  induction cs with
  | nil => exact fun prev h => h
  | cons c t ih =>
      intro prev h
      exact ⟨h.1, ih _ h.2⟩

/-- A hash-valid chain whose changesets are all detached verifies cleanly:
the aggregate flag stays true and every entry reports no failure (the
signature checks are skipped — the result does not depend on the credential
collaborators at all). -/
theorem verifyLoop_all_ok (C : Collab) (depth : VDepth) (n : Nat)
    (cs : List Changeset) :
    ∀ (i : Nat) (prev : Bytes), specChainOk C.blake2b C.serPatches prev cs →
    (∀ c ∈ cs, c.immutableStorageId = none) →
    verifyLoop C depth n i prev true cs =
      (true, cs.map (fun c =>
        ({ created := c.created, patches := c.patches, failure := none } : VerifyEntry))) := by
  induction cs with
  | nil =>
      intro i prev _ _
      rfl
  | cons c t ih =>
      intro i prev h hnone
      have hsid : c.immutableStorageId = none := hnone c (by simp)
      have hstep : verifyStepFailure C c
          (C.blake2b (chainInput C.serPatches prev c.created c.userIdentity c.patches)) =
          none := verifyStepFailure_none C c _ hsid
      have hhash : ¬ (bytesToBase64 (C.blake2b (chainInput C.serPatches prev
          c.created c.userIdentity c.patches)) ≠ c.hash) := by
        simp [h.1]
      simp only [verifyLoop]
      rw [if_neg hhash, hstep, ite_self]
      rw [if_neg (by simp)]
      rw [ih (i + 1) _ h.2 (fun x hx => hnone x (List.mem_cons_of_mem c hx))]
      rfl

theorem verifyChangesets_all_ok (C : Collab) (v : Vertex) (depth : VDepth)
    (h : specChainOk C.blake2b C.serPatches [] (v.changesets.getD []))
    (hnone : ∀ c ∈ v.changesets.getD [], c.immutableStorageId = none) :
    verifyChangesets C v depth =
      (true, (v.changesets.getD []).map (fun c =>
        ({ created := c.created, patches := c.patches, failure := none } : VerifyEntry))) := by
  unfold verifyChangesets
  exact verifyLoop_all_ok C depth _ _ 0 [] h hnone

theorem get_verified_eq (C : Collab) (e : VertexEntity) (incD incC : Bool)
    (d : VDepth) :
    (get C e incD incC (some d)).verified =
      some (verifyChangesets C (vertexEntityToModel e) d).1 ∧
    (get C e incD incC (some d)).verification =
      some (verifyChangesets C (vertexEntityToModel e) d).2 := by
  constructor <;> rfl

/-- C8: `removeImmutable` clears `immutableStorageId` on every changeset
carrying one (handing exactly those ids to the immutable log's `remove`)
and changes no other changeset field and no other part of the entity;
afterwards `get` with full verification still passes every hash check,
returns `verified = true`, and skips the signature checks for the detached
changesets (no failure is reported for any changeset). -/
theorem claim8_removeImmutable (C : Collab) (e : VertexEntity)
    (hsid : ∀ c ∈ e.changesets.getD [], c.immutableStorageId ≠ some "")
    (hchain : specChainOk C.blake2b C.serPatches [] (e.changesets.getD []))
    (incD incC : Bool) :
    (removeImmutable e).1.changesets.getD [] = (e.changesets.getD []).map
      (fun c => { c with immutableStorageId := none }) ∧
    (removeImmutable e).2 = (e.changesets.getD []).filterMap
      (fun c => c.immutableStorageId) ∧
    (removeImmutable e).1.aliases = e.aliases ∧
    (removeImmutable e).1.resources = e.resources ∧
    (removeImmutable e).1.edges = e.edges ∧
    (removeImmutable e).1.metadata = e.metadata ∧
    (get C (removeImmutable e).1 incD incC (some VDepth.all)).verified = some true ∧
    (∀ en ∈ (get C (removeImmutable e).1 incD incC
        (some VDepth.all)).verification.getD [], en.failure = none) := by
  obtain ⟨hcs, hids, _, _, _, _, _, hmd, _, hal, hre, hed⟩ := removeImmutable_spec e hsid
  have hmodel : (vertexEntityToModel (removeImmutable e).1).changesets.getD [] =
      (e.changesets.getD []).map (fun c => { c with immutableStorageId := none }) := by
    rw [vertexEntityToModel_changesets_getD, hcs]
  have hvc : verifyChangesets C (vertexEntityToModel (removeImmutable e).1) VDepth.all =
      (true, ((e.changesets.getD []).map (fun c => { c with immutableStorageId := none })).map
        (fun c => ({ created := c.created, patches := c.patches, failure := none } : VerifyEntry))) := by
    rw [verifyChangesets_all_ok C _ VDepth.all]
    · rw [hmodel]
    · rw [hmodel]
      exact specChainOk_clear_sid C.blake2b C.serPatches _ [] hchain
    · rw [hmodel]
      intro c hc
      obtain ⟨c0, _, hc0⟩ := List.mem_map.mp hc
      rw [← hc0]
  refine ⟨hcs, hids, hal, hre, hed, hmd, ?_, ?_⟩
  · rw [(get_verified_eq C (removeImmutable e).1 incD incC VDepth.all).1, hvc]
  · intro en hen
    rw [(get_verified_eq C (removeImmutable e).1 incD incC VDepth.all).2, hvc] at hen
    simp only [Option.getD_some, List.mem_map] at hen
    obtain ⟨c0, _, hc0⟩ := hen
    rw [← hc0]

/-! ## Claim C5 — id uniqueness within sub-element collections -/

theorem mem_replaceFirstBy {α : Type} (p : α → Bool) (f : α → α) (l : List α) :
    ∀ y ∈ replaceFirstBy p f l, y ∈ l ∨ ∃ x ∈ l, y = f x := by
  induction l with
  | nil =>
      intro y hy
      simp [replaceFirstBy] at hy
  | cons a t ih =>
      intro y hy
      rw [replaceFirstBy] at hy
      split at hy
      · rcases List.mem_cons.mp hy with h | h
        · exact Or.inr ⟨a, by simp, h⟩
        · exact Or.inl (List.mem_cons_of_mem a h)
      · rcases List.mem_cons.mp hy with h | h
        · exact Or.inl (by rw [h]; simp)
        · rcases ih y h with h2 | ⟨x, hx, hfx⟩
          · exact Or.inl (List.mem_cons_of_mem a h2)
          · exact Or.inr ⟨x, List.mem_cons_of_mem a hx, hfx⟩

theorem map_replaceFirstBy {α β : Type} (p : α → Bool) (f : α → α) (g : α → β)
    (hg : ∀ x, g (f x) = g x) (l : List α) :
    (replaceFirstBy p f l).map g = l.map g := by
  induction l with
  | nil => rfl
  | cons a t ih =>
      rw [replaceFirstBy]
      split
      · simp [hg]
      · simp [ih]

theorem updateAlias_ids (ctx : Ctx) (v : Vertex) (a : AliasArg)
    (hlive : ∀ x ∈ v.aliases.getD [], x.id = a.id → x.deleted = none) :
    aliasIds (updateAlias ctx v a) = aliasIds v ∨
    (a.id ∉ aliasIds v ∧ aliasIds (updateAlias ctx v a) = aliasIds v ++ [a.id]) := by
  unfold updateAlias aliasIds
  dsimp only
  split
  · next hfind =>
      refine Or.inr ⟨?_, by simp⟩
      intro hmem
      obtain ⟨x, hx, hxid⟩ := List.mem_map.mp hmem
      exact absurd (by simpa using hxid) (by simpa using List.find?_eq_none.mp hfind x hx)
  · next existing hfind =>
      have hmem := List.mem_of_find?_eq_some hfind
      have hid : existing.id = a.id := by simpa using List.find?_some hfind
      split
      · next htr =>
          exfalso
          rw [hlive existing hmem hid] at htr
          simp [optNatTruthy] at htr
      · split
        · refine Or.inl ?_
          dsimp only
          simp only [Option.getD_some]
          rw [map_replaceFirstBy]
          intro x
          rfl
        · exact Or.inl rfl

theorem updateAlias_deleted (ctx : Ctx) (v : Vertex) (a : AliasArg)
    (hlive : ∀ x ∈ v.aliases.getD [], x.id = a.id → x.deleted = none) :
    ∀ y ∈ (updateAlias ctx v a).aliases.getD [], y.deleted ≠ none →
    ∃ x ∈ v.aliases.getD [], y.id = x.id ∧ x.deleted ≠ none := by
  unfold updateAlias
  dsimp only
  split
  · intro y hy hydel
    rcases List.mem_append.mp hy with h | h
    · exact ⟨y, h, rfl, hydel⟩
    · exfalso
      apply hydel
      simp at h
      rw [h]
  · next existing hfind =>
      have hmem := List.mem_of_find?_eq_some hfind
      have hid : existing.id = a.id := by simpa using List.find?_some hfind
      split
      · next htr =>
          exfalso
          rw [hlive existing hmem hid] at htr
          simp [optNatTruthy] at htr
      · split
        · intro y hy hydel
          dsimp only at hy
          rcases mem_replaceFirstBy _ _ _ y hy with h | ⟨x, hx, hfx⟩
          · exact ⟨y, h, rfl, hydel⟩
          · refine ⟨x, hx, by rw [hfx], ?_⟩
            rw [hfx] at hydel
            exact hydel
        · intro y hy hydel
          exact ⟨y, hy, rfl, hydel⟩

theorem foldl_updateAlias_nodup (ctx : Ctx) (l : List AliasArg) :
    ∀ v : Vertex,
    (aliasIds v).Nodup →
    (∀ x ∈ v.aliases.getD [], x.deleted ≠ none → ∀ a ∈ l, a.id ≠ x.id) →
    (aliasIds (l.foldl (updateAlias ctx) v)).Nodup := by
  induction l with
  | nil =>
      intro v h _
      exact h
  | cons a t ih =>
      intro v hnd hdel
      rw [List.foldl_cons]
      have hlive : ∀ x ∈ v.aliases.getD [], x.id = a.id → x.deleted = none := by
        intro x hx hid
        by_contra hcon
        exact hdel x hx hcon a (by simp) hid.symm
      apply ih
      · rcases updateAlias_ids ctx v a hlive with h | ⟨hnin, heq⟩
        · rw [h]
          exact hnd
        · rw [heq, List.nodup_append]
          exact ⟨hnd, List.nodup_singleton _, by simpa using hnin⟩
      · intro y hy hydel b hb
        obtain ⟨x, hx, hid, hxdel⟩ := updateAlias_deleted ctx v a hlive y hy hydel
        intro hbid
        exact hdel x hx hxdel b (List.mem_cons_of_mem a hb) (by rw [hbid, hid])

theorem updateAliasList_nodup (ctx : Ctx) (v : Vertex) (as? : Option (List AliasArg))
    (hnd : (aliasIds v).Nodup)
    (hdel : ∀ x ∈ v.aliases.getD [], x.deleted ≠ none →
      ∀ a ∈ as?.getD [], a.id ≠ x.id) :
    (aliasIds (updateAliasList ctx v as?)).Nodup := by
  unfold updateAliasList
  dsimp only
  have hids : aliasIds { v with aliases := v.aliases.map (List.map (fun x =>
      if x.deleted = none ∧ aliasNotInList as? x.id then
        { x with deleted := some ctx.now } else x)) } = aliasIds v := by
    unfold aliasIds
    cases v.aliases with
    | none => rfl
    | some l =>
        simp only [Option.map_some', Option.getD_some, List.map_map]
        apply List.map_congr_left
        intro x _
        simp only [Function.comp_apply]
        split <;> rfl
  have hdel2 : ∀ x ∈ ({ v with aliases := v.aliases.map (List.map (fun x =>
      if x.deleted = none ∧ aliasNotInList as? x.id then
        { x with deleted := some ctx.now } else x)) } : Vertex).aliases.getD [],
      x.deleted ≠ none → ∀ a ∈ as?.getD [], a.id ≠ x.id := by
    intro x hx hxdel b hb
    cases hva : v.aliases with
    | none =>
        rw [hva] at hx
        simp at hx
    | some l =>
        rw [hva] at hx
        dsimp only [Option.map_some, Option.getD_some] at hx
        obtain ⟨x0, hx0, hfx⟩ := List.mem_map.mp hx
        by_cases hcond : x0.deleted = none ∧ aliasNotInList as? x0.id
        · rw [if_pos hcond] at hfx
          cases has : as? with
          | none =>
              rw [has] at hb
              simp at hb
          | some la =>
              have hnotin := hcond.2
              rw [has] at hnotin
              simp only [aliasNotInList] at hnotin
              have hno := List.find?_eq_none.mp (Option.isNone_iff_eq_none.mp hnotin)
              rw [has] at hb
              have hbx := hno b hb
              intro hbid
              rw [← hfx] at hbid
              exact (show ¬ b.id = x0.id by simpa using hbx) hbid
        · rw [if_neg hcond] at hfx
          rw [← hfx] at hxdel ⊢
          refine hdel x0 (by rw [hva]; exact hx0) ?_ b hb
          exact hxdel
  split
  · next hav =>
      apply foldl_updateAlias_nodup
      · rw [hids]
        exact hnd
      · exact hdel2
  · rw [hids]
    exact hnd

theorem updateResource_ids (ctx : Ctx) (v : Vertex) (a : ResourceArg)
    (hlive : ∀ x ∈ v.resources.getD [], x.id = a.id → x.deleted = none) :
    resourceIds (updateResource ctx v a) = resourceIds v ∨
    (a.id ∉ resourceIds v ∧ resourceIds (updateResource ctx v a) = resourceIds v ++ [a.id]) := by
  unfold updateResource resourceIds
  dsimp only
  split
  · next hfind =>
      refine Or.inr ⟨?_, by simp⟩
      intro hmem
      obtain ⟨x, hx, hxid⟩ := List.mem_map.mp hmem
      exact absurd (by simpa using hxid) (by simpa using List.find?_eq_none.mp hfind x hx)
  · next existing hfind =>
      have hmem := List.mem_of_find?_eq_some hfind
      have hid : existing.id = a.id := by simpa using List.find?_some hfind
      split
      · next htr =>
          exfalso
          rw [hlive existing hmem hid] at htr
          simp [optNatTruthy] at htr
      · split
        · refine Or.inl ?_
          dsimp only
          simp only [Option.getD_some]
          rw [map_replaceFirstBy]
          intro x
          rfl
        · exact Or.inl rfl

theorem updateResource_deleted (ctx : Ctx) (v : Vertex) (a : ResourceArg)
    (hlive : ∀ x ∈ v.resources.getD [], x.id = a.id → x.deleted = none) :
    ∀ y ∈ (updateResource ctx v a).resources.getD [], y.deleted ≠ none →
    ∃ x ∈ v.resources.getD [], y.id = x.id ∧ x.deleted ≠ none := by
  unfold updateResource
  dsimp only
  split
  · intro y hy hydel
    rcases List.mem_append.mp hy with h | h
    · exact ⟨y, h, rfl, hydel⟩
    · exfalso
      apply hydel
      simp at h
      rw [h]
  · next existing hfind =>
      have hmem := List.mem_of_find?_eq_some hfind
      have hid : existing.id = a.id := by simpa using List.find?_some hfind
      split
      · next htr =>
          exfalso
          rw [hlive existing hmem hid] at htr
          simp [optNatTruthy] at htr
      · split
        · intro y hy hydel
          dsimp only at hy
          rcases mem_replaceFirstBy _ _ _ y hy with h | ⟨x, hx, hfx⟩
          · exact ⟨y, h, rfl, hydel⟩
          · refine ⟨x, hx, by rw [hfx], ?_⟩
            rw [hfx] at hydel
            exact hydel
        · intro y hy hydel
          exact ⟨y, hy, rfl, hydel⟩

theorem foldl_updateResource_nodup (ctx : Ctx) (l : List ResourceArg) :
    ∀ v : Vertex,
    (resourceIds v).Nodup →
    (∀ x ∈ v.resources.getD [], x.deleted ≠ none → ∀ a ∈ l, a.id ≠ x.id) →
    (resourceIds (l.foldl (updateResource ctx) v)).Nodup := by
  induction l with
  | nil =>
      intro v h _
      exact h
  | cons a t ih =>
      intro v hnd hdel
      rw [List.foldl_cons]
      have hlive : ∀ x ∈ v.resources.getD [], x.id = a.id → x.deleted = none := by
        intro x hx hid
        by_contra hcon
        exact hdel x hx hcon a (by simp) hid.symm
      apply ih
      · rcases updateResource_ids ctx v a hlive with h | ⟨hnin, heq⟩
        · rw [h]
          exact hnd
        · rw [heq, List.nodup_append]
          exact ⟨hnd, List.nodup_singleton _, by simpa using hnin⟩
      · intro y hy hydel b hb
        obtain ⟨x, hx, hid, hxdel⟩ := updateResource_deleted ctx v a hlive y hy hydel
        intro hbid
        exact hdel x hx hxdel b (List.mem_cons_of_mem a hb) (by rw [hbid, hid])

theorem updateResourceList_nodup (ctx : Ctx) (v : Vertex) (as? : Option (List ResourceArg))
    (hnd : (resourceIds v).Nodup)
    (hdel : ∀ x ∈ v.resources.getD [], x.deleted ≠ none →
      ∀ a ∈ as?.getD [], a.id ≠ x.id) :
    (resourceIds (updateResourceList ctx v as?)).Nodup := by
  unfold updateResourceList
  dsimp only
  have hids : resourceIds { v with resources := v.resources.map (List.map (fun x =>
      if x.deleted = none ∧ resourceNotInList as? x.id then
        { x with deleted := some ctx.now } else x)) } = resourceIds v := by
    unfold resourceIds
    cases v.resources with
    | none => rfl
    | some l =>
        simp only [Option.map_some', Option.getD_some, List.map_map]
        apply List.map_congr_left
        intro x _
        simp only [Function.comp_apply]
        split <;> rfl
  have hdel2 : ∀ x ∈ ({ v with resources := v.resources.map (List.map (fun x =>
      if x.deleted = none ∧ resourceNotInList as? x.id then
        { x with deleted := some ctx.now } else x)) } : Vertex).resources.getD [],
      x.deleted ≠ none → ∀ a ∈ as?.getD [], a.id ≠ x.id := by
    intro x hx hxdel b hb
    cases hva : v.resources with
    | none =>
        rw [hva] at hx
        simp at hx
    | some l =>
        rw [hva] at hx
        dsimp only [Option.map_some, Option.getD_some] at hx
        obtain ⟨x0, hx0, hfx⟩ := List.mem_map.mp hx
        by_cases hcond : x0.deleted = none ∧ resourceNotInList as? x0.id
        · rw [if_pos hcond] at hfx
          cases has : as? with
          | none =>
              rw [has] at hb
              simp at hb
          | some la =>
              have hnotin := hcond.2
              rw [has] at hnotin
              simp only [resourceNotInList] at hnotin
              have hno := List.find?_eq_none.mp (Option.isNone_iff_eq_none.mp hnotin)
              rw [has] at hb
              have hbx := hno b hb
              intro hbid
              rw [← hfx] at hbid
              exact (show ¬ b.id = x0.id by simpa using hbx) hbid
        · rw [if_neg hcond] at hfx
          rw [← hfx] at hxdel ⊢
          refine hdel x0 (by rw [hva]; exact hx0) ?_ b hb
          exact hxdel
  split
  · next hav =>
      apply foldl_updateResource_nodup
      · rw [hids]
        exact hnd
      · exact hdel2
  · rw [hids]
    exact hnd


theorem updateEdge_ids (ctx : Ctx) (v : Vertex) (a : EdgeArg)
    (hlive : ∀ x ∈ v.edges.getD [], x.id = a.id → x.deleted = none) :
    edgeIds (updateEdge ctx v a) = edgeIds v ∨
    (a.id ∉ edgeIds v ∧ edgeIds (updateEdge ctx v a) = edgeIds v ++ [a.id]) := by
  unfold updateEdge edgeIds
  dsimp only
  split
  · next hfind =>
      refine Or.inr ⟨?_, by simp⟩
      intro hmem
      obtain ⟨x, hx, hxid⟩ := List.mem_map.mp hmem
      exact absurd (by simpa using hxid) (by simpa using List.find?_eq_none.mp hfind x hx)
  · next existing hfind =>
      have hmem := List.mem_of_find?_eq_some hfind
      have hid : existing.id = a.id := by simpa using List.find?_some hfind
      split
      · next htr =>
          exfalso
          rw [hlive existing hmem hid] at htr
          simp [optNatTruthy] at htr
      · split
        · refine Or.inl ?_
          dsimp only
          simp only [Option.getD_some]
          rw [map_replaceFirstBy]
          intro x
          rfl
        · exact Or.inl rfl

theorem updateEdge_deleted (ctx : Ctx) (v : Vertex) (a : EdgeArg)
    (hlive : ∀ x ∈ v.edges.getD [], x.id = a.id → x.deleted = none) :
    ∀ y ∈ (updateEdge ctx v a).edges.getD [], y.deleted ≠ none →
    ∃ x ∈ v.edges.getD [], y.id = x.id ∧ x.deleted ≠ none := by
  unfold updateEdge
  dsimp only
  split
  · intro y hy hydel
    rcases List.mem_append.mp hy with h | h
    · exact ⟨y, h, rfl, hydel⟩
    · exfalso
      apply hydel
      simp at h
      rw [h]
  · next existing hfind =>
      have hmem := List.mem_of_find?_eq_some hfind
      have hid : existing.id = a.id := by simpa using List.find?_some hfind
      split
      · next htr =>
          exfalso
          rw [hlive existing hmem hid] at htr
          simp [optNatTruthy] at htr
      · split
        · intro y hy hydel
          dsimp only at hy
          rcases mem_replaceFirstBy _ _ _ y hy with h | ⟨x, hx, hfx⟩
          · exact ⟨y, h, rfl, hydel⟩
          · refine ⟨x, hx, by rw [hfx], ?_⟩
            rw [hfx] at hydel
            exact hydel
        · intro y hy hydel
          exact ⟨y, hy, rfl, hydel⟩

theorem foldl_updateEdge_nodup (ctx : Ctx) (l : List EdgeArg) :
    ∀ v : Vertex,
    (edgeIds v).Nodup →
    (∀ x ∈ v.edges.getD [], x.deleted ≠ none → ∀ a ∈ l, a.id ≠ x.id) →
    (edgeIds (l.foldl (updateEdge ctx) v)).Nodup := by
  induction l with
  | nil =>
      intro v h _
      exact h
  | cons a t ih =>
      intro v hnd hdel
      rw [List.foldl_cons]
      have hlive : ∀ x ∈ v.edges.getD [], x.id = a.id → x.deleted = none := by
        intro x hx hid
        by_contra hcon
        exact hdel x hx hcon a (by simp) hid.symm
      apply ih
      · rcases updateEdge_ids ctx v a hlive with h | ⟨hnin, heq⟩
        · rw [h]
          exact hnd
        · rw [heq, List.nodup_append]
          exact ⟨hnd, List.nodup_singleton _, by simpa using hnin⟩
      · intro y hy hydel b hb
        obtain ⟨x, hx, hid, hxdel⟩ := updateEdge_deleted ctx v a hlive y hy hydel
        intro hbid
        exact hdel x hx hxdel b (List.mem_cons_of_mem a hb) (by rw [hbid, hid])

theorem updateEdgeList_nodup (ctx : Ctx) (v : Vertex) (as? : Option (List EdgeArg))
    (hnd : (edgeIds v).Nodup)
    (hdel : ∀ x ∈ v.edges.getD [], x.deleted ≠ none →
      ∀ a ∈ as?.getD [], a.id ≠ x.id) :
    (edgeIds (updateEdgeList ctx v as?)).Nodup := by
  unfold updateEdgeList
  dsimp only
  have hids : edgeIds { v with edges := v.edges.map (List.map (fun x =>
      if x.deleted = none ∧ edgeNotInList as? x.id then
        { x with deleted := some ctx.now } else x)) } = edgeIds v := by
    unfold edgeIds
    cases v.edges with
    | none => rfl
    | some l =>
        simp only [Option.map_some', Option.getD_some, List.map_map]
        apply List.map_congr_left
        intro x _
        simp only [Function.comp_apply]
        split <;> rfl
  have hdel2 : ∀ x ∈ ({ v with edges := v.edges.map (List.map (fun x =>
      if x.deleted = none ∧ edgeNotInList as? x.id then
        { x with deleted := some ctx.now } else x)) } : Vertex).edges.getD [],
      x.deleted ≠ none → ∀ a ∈ as?.getD [], a.id ≠ x.id := by
    intro x hx hxdel b hb
    cases hva : v.edges with
    | none =>
        rw [hva] at hx
        simp at hx
    | some l =>
        rw [hva] at hx
        dsimp only [Option.map_some, Option.getD_some] at hx
        obtain ⟨x0, hx0, hfx⟩ := List.mem_map.mp hx
        by_cases hcond : x0.deleted = none ∧ edgeNotInList as? x0.id
        · rw [if_pos hcond] at hfx
          cases has : as? with
          | none =>
              rw [has] at hb
              simp at hb
          | some la =>
              have hnotin := hcond.2
              rw [has] at hnotin
              simp only [edgeNotInList] at hnotin
              have hno := List.find?_eq_none.mp (Option.isNone_iff_eq_none.mp hnotin)
              rw [has] at hb
              have hbx := hno b hb
              intro hbid
              rw [← hfx] at hbid
              exact (show ¬ b.id = x0.id by simpa using hbx) hbid
        · rw [if_neg hcond] at hfx
          rw [← hfx] at hxdel ⊢
          refine hdel x0 (by rw [hva]; exact hx0) ?_ b hb
          exact hxdel
  split
  · next hav =>
      apply foldl_updateEdge_nodup
      · rw [hids]
        exact hnd
      · exact hdel2
  · rw [hids]
    exact hnd

/-- C5 counterexample: after create with alias `a`, an update with the empty
list (soft-deleting `a`), and an update re-supplying `a`, the collection
holds TWO elements with id `a` — the retained tombstone and the re-created
element — so ids are not unique within the collection, contrary to the
claim's "including after ... the same id is supplied again". -/
theorem claim5_counterexample :
    ¬ ((vReAdd.aliases.getD []).map (fun a => a.id)).Nodup := by
  decide

/-- C5 (amended): element ids stay unique within each sub-element collection
across any create/update reconciliation PROVIDED no update-list item re-uses
the id of an already-tombstoned element of that collection; re-supplying a
tombstoned id instead appends a second element with the same id (see the
counterexample). -/
theorem claim5_amended_unique_ids (ctx : Ctx) (v : Vertex) (ms md : Option String)
    (as? : Option (List AliasArg)) (rs? : Option (List ResourceArg))
    (es? : Option (List EdgeArg))
    (hndA : (aliasIds v).Nodup)
    (hdelA : ∀ x ∈ v.aliases.getD [], x.deleted ≠ none →
      ∀ a ∈ as?.getD [], a.id ≠ x.id)
    (hndR : (resourceIds v).Nodup)
    (hdelR : ∀ x ∈ v.resources.getD [], x.deleted ≠ none →
      ∀ r ∈ rs?.getD [], r.id ≠ x.id)
    (hndE : (edgeIds v).Nodup)
    (hdelE : ∀ x ∈ v.edges.getD [], x.deleted ≠ none →
      ∀ ed ∈ es?.getD [], ed.id ≠ x.id) :
    (aliasIds (reconcile ctx v ms md as? rs? es?)).Nodup ∧
    (resourceIds (reconcile ctx v ms md as? rs? es?)).Nodup ∧
    (edgeIds (reconcile ctx v ms md as? rs? es?)).Nodup := by
  obtain ⟨A, hA⟩ := updateAliasList_shape ctx
    { v with metadataSchema := ms, metadata := md } as?
  obtain ⟨R, hR⟩ := updateResourceList_shape ctx
    (updateAliasList ctx { v with metadataSchema := ms, metadata := md } as?) rs?
  obtain ⟨E, hE⟩ := updateEdgeList_shape ctx
    (updateResourceList ctx
      (updateAliasList ctx { v with metadataSchema := ms, metadata := md } as?) rs?) es?
  refine ⟨?_, ?_, ?_⟩
  · have ha : aliasIds (reconcile ctx v ms md as? rs? es?) =
        aliasIds (updateAliasList ctx
          { v with metadataSchema := ms, metadata := md } as?) := by
      show aliasIds (updateEdgeList ctx (updateResourceList ctx
        (updateAliasList ctx { v with metadataSchema := ms, metadata := md } as?) rs?) es?) = _
      rw [hE, hR]
      rfl
    rw [ha]
    exact updateAliasList_nodup ctx _ as? hndA hdelA
  · have hr : resourceIds (reconcile ctx v ms md as? rs? es?) =
        resourceIds (updateResourceList ctx
          (updateAliasList ctx { v with metadataSchema := ms, metadata := md } as?) rs?) := by
      show resourceIds (updateEdgeList ctx (updateResourceList ctx
        (updateAliasList ctx { v with metadataSchema := ms, metadata := md } as?) rs?) es?) = _
      rw [hE]
      rfl
    rw [hr]
    refine updateResourceList_nodup ctx _ rs? ?_ ?_
    · rw [hA]
      exact hndR
    · rw [hA]
      exact hdelR
  · show (edgeIds (updateEdgeList ctx (updateResourceList ctx
      (updateAliasList ctx { v with metadataSchema := ms, metadata := md } as?) rs?) es?)).Nodup
    refine updateEdgeList_nodup ctx _ es? ?_ ?_
    · rw [hR, hA]
      exact hndE
    · rw [hR, hA]
      exact hdelE

/-- C5 witness: a vertex with live alias `a`, tombstoned alias `b`, one
resource and one edge, updated with alias list `[a, c]` (no tombstoned id
re-used), empty resource list and absent edge list. -/
theorem claim5_amended_unique_ids_witness :
    (aliasIds vMixed).Nodup ∧
    (∀ x ∈ vMixed.aliases.getD [], x.deleted ≠ none →
      ∀ a ∈ ((some [({ id := "a" } : AliasArg), { id := "c" }]).getD
        ([] : List AliasArg)), a.id ≠ x.id) ∧
    (resourceIds vMixed).Nodup ∧
    (∀ x ∈ vMixed.resources.getD [], x.deleted ≠ none →
      ∀ r ∈ ((some ([] : List ResourceArg)).getD []), r.id ≠ x.id) ∧
    (edgeIds vMixed).Nodup ∧
    (∀ x ∈ vMixed.edges.getD [], x.deleted ≠ none →
      ∀ ed ∈ ((none : Option (List EdgeArg)).getD []), ed.id ≠ x.id) ∧
    ((aliasIds (reconcile ctx5 vMixed none none
        (some [{ id := "a" }, { id := "c" }]) (some []) none)).Nodup ∧
     (resourceIds (reconcile ctx5 vMixed none none
        (some [{ id := "a" }, { id := "c" }]) (some []) none)).Nodup ∧
     (edgeIds (reconcile ctx5 vMixed none none
        (some [{ id := "a" }, { id := "c" }]) (some []) none)).Nodup) :=
  ⟨by decide, by decide, by decide, by decide, by decide, by decide,
   claim5_amended_unique_ids ctx5 vMixed none none
     (some [{ id := "a" }, { id := "c" }]) (some []) none
     (by decide) (by decide) (by decide) (by decide) (by decide) (by decide)⟩

/-! ## Remaining witnesses -/

/-- C9 witness: updating `eMeta` (which stores metadata) while omitting the
metadata arguments. -/
theorem claim9_metadata_overwrite_witness :
    metaDiffCollab.diff = diffMetaFields ∧
    (vertexEntityToModel eMeta).metadataSchema = some "s" ∧
    (vertexEntityToModel eMeta).metadata = some "m" ∧
    (∃ e2, update metaDiffCollab "log:1" ctx5 eMeta none none none none none = some e2 ∧
      e2.metadataSchema = none ∧ e2.metadata = none ∧
      ∃ cs, (e2.changesets.getD []).getLast? = some cs ∧
        ({ op := PatchOp.remove, path := "/metadataSchema" } : Patch) ∈ cs.patches ∧
        ({ op := PatchOp.remove, path := "/metadata" } : Patch) ∈ cs.patches) :=
  ⟨rfl, by decide, by decide,
   claim9_metadata_overwrite metaDiffCollab rfl "log:1" ctx5 eMeta "s" "m"
     (by decide) (by decide) none none none⟩

/-- C8 witness: one anchored, hash-valid changeset. -/
theorem claim8_removeImmutable_witness :
    (∀ c ∈ eWithSid.changesets.getD [], c.immutableStorageId ≠ some "") ∧
    specChainOk trivialCollab.blake2b trivialCollab.serPatches []
      (eWithSid.changesets.getD []) ∧
    ((removeImmutable eWithSid).1.changesets.getD [] =
        (eWithSid.changesets.getD []).map
          (fun c => { c with immutableStorageId := none }) ∧
     (removeImmutable eWithSid).2 = (eWithSid.changesets.getD []).filterMap
        (fun c => c.immutableStorageId) ∧
     (removeImmutable eWithSid).1.aliases = eWithSid.aliases ∧
     (removeImmutable eWithSid).1.resources = eWithSid.resources ∧
     (removeImmutable eWithSid).1.edges = eWithSid.edges ∧
     (removeImmutable eWithSid).1.metadata = eWithSid.metadata ∧
     (get trivialCollab (removeImmutable eWithSid).1 false false
        (some VDepth.all)).verified = some true ∧
     (∀ en ∈ (get trivialCollab (removeImmutable eWithSid).1 false false
        (some VDepth.all)).verification.getD [], en.failure = none)) :=
  ⟨by decide, ⟨rfl, trivial⟩,
   claim8_removeImmutable trivialCollab eWithSid (by decide) ⟨rfl, trivial⟩ false false⟩

/-- C10 witness: a one-changeset valid chain whose stored hash is replaced
by `"x"`. -/
theorem claim10_verify_chains_recomputed_witness :
    specChainOk trivialCollab.blake2b trivialCollab.serPatches [] [cOk] ∧
    ([cOk].get? 0 = some cOk) ∧
    ("x" ≠ cOk.hash) ∧
    (vSetHash.changesets = some ([cOk].set 0 { cOk with hash := "x" })) ∧
    ((∃ en, (verifyChangesets trivialCollab vSetHash VDepth.all).2.get? 0 = some en ∧
        en.failure = some "invalidChangesetHash") ∧
     (∀ (j : Nat) (c : Changeset) (en2 : VerifyEntry), j ≠ 0 → [cOk].get? j = some c →
        (verifyChangesets trivialCollab vSetHash VDepth.all).2.get? j = some en2 →
        en2.failure ≠ some "invalidChangesetHash")) :=
  ⟨⟨rfl, trivial⟩, rfl, by decide, rfl,
   claim10_verify_chains_recomputed trivialCollab [cOk] ⟨rfl, trivial⟩ 0 cOk rfl
     "x" (by decide) vSetHash rfl⟩

end AIG
